import Mathlib

/-!
Verification development for the DBA ω-word acceptance engine
(shared/dba.ts, shared/utils regex parser, shared/buchi.ts samples).

JavaScript strings are modelled as lists of characters, JavaScript numbers
used as state indices as integers with the -1 sentinel kept explicit, and
the unbounded while-loops of the source (the periodic-cycle search, the
star-closure worklist and the recursive-descent parser) as fuel-indexed
recursions together with theorems showing the fuel chosen by the wrappers
is always sufficient.
-/

namespace Automaton

/-- A JavaScript string, as a list of its characters. -/
abbrev Str := List Char

/-- shared/buchi.ts: type BuchiTransition.  The source field names are
from, symbol and to; from and to are Lean keywords so they are rendered
from_ and to_. -/
structure BuchiTransition where
  from_ : Str
  symbol : Str
  to_ : Str
deriving DecidableEq

/-- shared/buchi.ts: type BuchiAutomaton. -/
structure BuchiAutomaton where
  states : List Str
  alphabet : List Str
  initial : Str
  accepting : List Str
  transitions : List BuchiTransition
deriving DecidableEq

/-- shared/dba.ts: type StateTransform = map of state indices plus the
realized concrete word. -/
structure StateTransform where
  map : List Int
  word : Str
deriving DecidableEq

/-- shared/dba.ts: type DbaCycleEvaluation. -/
structure DbaCycleEvaluation where
  accepted : Bool
  cycle : List Str
  prefixWord : Str
  loopWord : Str
  entryState : Str
  reason : String
deriving DecidableEq

/-- shared/utils: type RegexNode, the tagged-union AST of the ω-word
regex. -/
inductive RegexNode where
  | literal (value : Str)
  | concat (nodes : List RegexNode)
  | union (nodes : List RegexNode)
  | star (node : RegexNode)
  | plus (node : RegexNode)
  | omega (node : RegexNode)

/-- shared/utils: interface ParsedOmegaWord.  The source field name
prefix is a Lean keyword so it is rendered pfx. -/
structure ParsedOmegaWord where
  pfx : Option RegexNode
  omega : RegexNode
  ast : RegexNode

/-- shared/utils: type OmegaParseResult. -/
inductive OmegaParseResult where
  | success (word : ParsedOmegaWord)
  | failure (error : String)

/-- new Map(automaton.states.map((s, i) => [s, i])): later entries of a
JavaScript Map constructor overwrite earlier ones, so a duplicated state
name is sent to its last index. -/
def stateToIndex (states : List Str) (s : Str) : Option Nat :=
  ((states.enum.filterMap fun p => if p.2 = s then some p.1 else none).getLast?)

/-- indexToState = automaton.states, indexed by a state index.  Indices
reaching this function are always produced by stateToIndex or buildStep
and hence in range; out-of-range access (undefined in JavaScript) is
rendered as the empty name. -/
def indexToState (A : BuchiAutomaton) (i : Int) : Str :=
  if i < 0 then [] else A.states.getD i.toNat []

/-- shared/dba.ts: identity(size) = map sending each index to itself,
with the empty word. -/
def identityTransform (size : Nat) : StateTransform :=
  { map := (List.range size).map Int.ofNat, word := [] }

/-- shared/dba.ts: compose(a, b) = run a, then b.  The source reads
a.map.map(target => target === -1 ? -1 : b.map[target] ?? -1);
JavaScript indexing with any negative number yields undefined and hence
-1, which the second branch below renders. -/
def compose (a b : StateTransform) : StateTransform :=
  { map := a.map.map fun t => if t = -1 then -1 else if t < 0 then -1 else b.map.getD t.toNat (-1),
    word := a.word ++ b.word }

/-- shared/dba.ts: transformKey(t) = t.map.join(",").  Joining integers
with commas is injective, so the key is modelled by the map itself. -/
def transformKey (t : StateTransform) : List Int :=
  t.map

/-- shared/dba.ts: buildStep builds a table indexed by (state index,
symbol) where a later transition for the same pair overwrites an earlier
one, and looks it up returning -1 when no transition exists.  The
last-write-wins lookup is rendered as a left fold over the transition
list. -/
def buildStep (A : BuchiAutomaton) : Int → Str → Int :=
  fun state symbol =>
    A.transitions.foldl
      (fun acc t =>
        match stateToIndex A.states t.from_, stateToIndex A.states t.to_ with
        | some f, some tt => if (f : Int) = state ∧ t.symbol = symbol then (tt : Int) else acc
        | _, _ => acc)
      (-1)

/-- shared/dba.ts: runWord applies each character of the word in order,
returning the reached state or null (none) when a step yields -1. -/
def runWord (word : Str) (start : Int) (step : Int → Str → Int) : Option Int :=
  match word with
  | [] => some start
  | c :: rest =>
    let nxt := step start [c]
    if nxt = -1 then none else runWord rest nxt step

/-- shared/dba.ts: the record returned by findPeriodicCycle. -/
structure CycleResult where
  cycleStates : List Int
  reason : String
deriving DecidableEq

/-- The Map of visited (state, position) pairs of findPeriodicCycle:
keys are inserted only when absent, so the first match is the match. -/
def lookupPair : List ((Int × Nat) × Nat) → (Int × Nat) → Option Nat
  | [], _ => none
  | (k, v) :: rest, key => if k = key then some v else lookupPair rest key

/-- The while(true) body of findPeriodicCycle, indexed by fuel.  The
outer none marks fuel exhaustion (a model artifact proved unreachable
for the fuel the callers pass); some none is the null of the source
(the run got stuck); some (some c) is a found cycle. -/
def findPeriodicCycleAux (step : Int → Str → Int) (loopWord : Str) :
    Nat → List ((Int × Nat) × Nat) → List Int → Int → Nat → Option (Option CycleResult)
  | 0, _, _, _, _ => none
  | fuel + 1, seen, path, state, pos =>
    match lookupPair seen (state, pos) with
    | some start =>
      let cycleStates := path.drop start
      some (some { cycleStates := cycleStates,
                   reason := if cycleStates.length > 0 then
                       "Cycle detected while repeating the loop word."
                     else "No cycle detected." })
    | none =>
      let seen2 := seen ++ [((state, pos), path.length - 1)]
      let symbol : Str := [loopWord.getD pos 'x']
      let next := step state symbol
      if next = -1 then some none
      else findPeriodicCycleAux step loopWord fuel seen2 (path ++ [next]) next ((pos + 1) % loopWord.length)

/-- shared/dba.ts: findPeriodicCycle(entryState, loopWord, step); the
empty loop word yields the trivial one-state cycle, otherwise the
worklist runs with the given fuel. -/
def findPeriodicCycle (entryState : Int) (loopWord : Str) (step : Int → Str → Int)
    (fuel : Nat) : Option (Option CycleResult) :=
  if loopWord.length = 0 then
    some (some { cycleStates := [entryState],
                 reason := "Empty loop word; stay in the entry state." })
  else findPeriodicCycleAux step loopWord fuel [] [entryState] entryState 0

/-- shared/dba.ts: buildLetterTransforms builds one map per alphabet
symbol; for a fixed symbol the map starts all -1 and each matching
transition with resolvable endpoints writes map[from] = to. -/
def buildLetterMap (A : BuchiAutomaton) (symbol : Str) : List Int :=
  A.transitions.foldl
    (fun m t =>
      if t.symbol = symbol then
        match stateToIndex A.states t.from_, stateToIndex A.states t.to_ with
        | some f, some tt => m.set f (tt : Int)
        | _, _ => m
      else m)
    (List.replicate A.states.length (-1))

/-- Lookup in the Record built by buildLetterTransforms: defined for
exactly the alphabet symbols (duplicated alphabet entries rebuild the
same map, so a plain membership test is faithful). -/
def buildLetterTransforms (A : BuchiAutomaton) : Str → Option StateTransform :=
  fun symbol =>
    if symbol ∈ A.alphabet then some { map := buildLetterMap A symbol, word := symbol }
    else none

/-- The per-character loop of buildLiteralTransform: compose the letter
transforms in order; an unknown symbol yields the always-undefined map
while still appending the symbol to the word trace, and stops (break). -/
def buildLiteralAux (lt : Str → Option StateTransform) (size : Nat) :
    StateTransform → Str → StateTransform
  | current, [] => current
  | current, c :: rest =>
    match lt [c] with
    | none => { map := List.replicate size (-1), word := current.word ++ [c] }
    | some letter => buildLiteralAux lt size (compose current letter) rest

/-- shared/dba.ts: buildLiteralTransform(literal, letterTransforms, size). -/
def buildLiteralTransform (lt : Str → Option StateTransform) (size : Nat)
    (literal : Str) : StateTransform :=
  buildLiteralAux lt size (identityTransform size) literal

/-- shared/dba.ts: dedupe keeps the first transform for each distinct
map key, in order.  The seen set is carried as the list of keys. -/
def dedupeAux : List StateTransform → List (List Int) → List StateTransform
  | [], _ => []
  | t :: rest, seen =>
    if transformKey t ∈ seen then dedupeAux rest seen
    else t :: dedupeAux rest (transformKey t :: seen)

/-- shared/dba.ts: dedupe(items). -/
def dedupe (items : List StateTransform) : List StateTransform :=
  dedupeAux items []

/-- shared/dba.ts: combine(a, b) composes every pair in row-major order
and dedupes by the resulting key, which equals deduping the row-major
list of compositions. -/
def combine (a b : List StateTransform) : List StateTransform :=
  dedupe (a.flatMap fun left => b.map fun right => compose left right)

/-- The inner for-loop of starClosure: compose the popped transform with
every base member, appending each composition whose key is new to the
closure, the queue and the seen set. -/
def scStep (base : List StateTransform) (current : StateTransform)
    (st : List StateTransform × List StateTransform × List (List Int)) :
    List StateTransform × List StateTransform × List (List Int) :=
  base.foldl
    (fun acc b =>
      let composed := compose current b
      if transformKey composed ∈ acc.2.2 then acc
      else (acc.1 ++ [composed], acc.2.1 ++ [composed], acc.2.2 ++ [transformKey composed]))
    st

/-- The while-loop of starClosure, indexed by fuel: pop from the end of
the queue (JavaScript Array.pop) and run the inner loop.  none marks
fuel exhaustion, proved unreachable for the fuel starClosure passes. -/
def starClosureAux (base : List StateTransform) :
    Nat → List StateTransform × List StateTransform × List (List Int) →
    Option (List StateTransform)
  | 0, _ => none
  | fuel + 1, (closure, queue, seen) =>
    match queue.getLast? with
    | none => some closure
    | some current =>
      starClosureAux base fuel (scStep base current (closure, queue.dropLast, seen))

/-- All lists of the given length over the given entry list (with
multiplicity); a finite enumeration of the key space the worklist can
reach, used to compute a sufficient fuel. -/
def allLists (E : List Int) : Nat → List (List Int)
  | 0 => [[]]
  | n + 1 => E.flatMap fun e => (allLists E n).map fun k => e :: k

/-- Every entry a key reachable by the worklist can contain: the -1
sentinel, the identity entries, and every entry of a base map. -/
def scEntries (base : List StateTransform) (size : Nat) : List Int :=
  (-1) :: ((List.range size).map Int.ofNat ++ base.flatMap fun t => t.map)

/-- Every length a reachable key can have: the identity length and the
base map lengths (composition preserves the left length). -/
def scLens (base : List StateTransform) (size : Nat) : List Nat :=
  (size :: base.map fun t => t.map.length).dedup

/-- The finite space of keys the worklist can reach. -/
def scSpace (base : List StateTransform) (size : Nat) : List (List Int) :=
  (scLens base size).flatMap (allLists (scEntries base size))

/-- The closure the worklist starts from: dedupe([identity, ...base]). -/
def initClosure (base : List StateTransform) (size : Nat) : List StateTransform :=
  dedupe (identityTransform size :: base)

/-- Fuel that always suffices for the worklist: every iteration pops one
queue entry and every push adds a fresh key of the finite key space. -/
def sufficientFuel (base : List StateTransform) (size : Nat) : Nat :=
  (initClosure base size).length + (scSpace base size).length + 1

/-- shared/dba.ts: starClosure(base, size), run with sufficient fuel. -/
def starClosure (base : List StateTransform) (size : Nat) : Option (List StateTransform) :=
  let c := initClosure base size
  starClosureAux base (sufficientFuel base size) (c, c, c.map transformKey)

mutual

/-- shared/dba.ts: evaluateRegex on a non-null node.  Option-valued only
because starClosure carries its fuel result; every branch is otherwise a
direct transcription of the switch.  The plus branch of the source
evaluates the child twice; both evaluations are the same pure value, so
it is evaluated once here and used twice. -/
def evalNode (lt : Str → Option StateTransform) (size : Nat) :
    RegexNode → Option (List StateTransform)
  | .literal v => some [buildLiteralTransform lt size v]
  | .concat nodes => evalConcatList lt size nodes [identityTransform size]
  | .union nodes =>
    match evalUnionList lt size nodes with
    | none => none
    | some ts => some (dedupe ts)
  | .star node =>
    match evalNode lt size node with
    | none => none
    | some base => starClosure base size
  | .plus node =>
    match evalNode lt size node with
    | none => none
    | some base =>
      match starClosure base size with
      | none => none
      | some cl => some (combine base cl)
  | .omega node => evalNode lt size node

/-- The reduce of the concat branch: fold combine over the children,
starting from the singleton identity set. -/
def evalConcatList (lt : Str → Option StateTransform) (size : Nat) :
    List RegexNode → List StateTransform → Option (List StateTransform)
  | [], acc => some acc
  | c :: rest, acc =>
    match evalNode lt size c with
    | none => none
    | some ts => evalConcatList lt size rest (combine acc ts)

/-- The flatMap of the union branch: concatenate the children's sets in
order (the dedupe is applied by the union branch itself). -/
def evalUnionList (lt : Str → Option StateTransform) (size : Nat) :
    List RegexNode → Option (List StateTransform)
  | [] => some []
  | c :: rest =>
    match evalNode lt size c with
    | none => none
    | some ts =>
      match evalUnionList lt size rest with
      | none => none
      | some rs => some (ts ++ rs)

end

/-- shared/dba.ts: evaluateRegex(node, letterTransforms, size) with the
null case: a null node evaluates to the singleton identity set. -/
def evaluateRegex (lt : Str → Option StateTransform) (size : Nat) :
    Option RegexNode → Option (List StateTransform)
  | none => some [identityTransform size]
  | some node => evalNode lt size node

/-- The early-return record of both drivers when the initial state is
not a member of the state list. -/
def initialMissingRecord (A : BuchiAutomaton) : DbaCycleEvaluation :=
  { accepted := false, cycle := [], prefixWord := [], loopWord := [],
    entryState := A.initial, reason := "Initial state is not part of the automaton." }

/-- The record the first driver returns when running a prefix
candidate's word gets stuck. -/
def prefixStuckRecord (A : BuchiAutomaton) (p : StateTransform) : DbaCycleEvaluation :=
  { accepted := false, cycle := [], prefixWord := p.word, loopWord := [],
    entryState := A.initial, reason := "Prefix causes the run to get stuck." }

/-- The first driver's firstNonAccepting record for a stuck loop
candidate. -/
def loopStuckRecord (A : BuchiAutomaton) (pword lword : Str) (entry : Int) :
    DbaCycleEvaluation :=
  { accepted := false, cycle := [], prefixWord := pword, loopWord := lword,
    entryState := indexToState A entry, reason := "Loop causes the run to get stuck." }

/-- Whether a found cycle contains an accepting state. -/
def cycleAccepting (A : BuchiAutomaton) (cyc : CycleResult) : Bool :=
  cyc.cycleStates.any fun idx => decide (indexToState A idx ∈ A.accepting)

/-- The record built from a found cycle: accepted iff some cycle state
is an accepting state. -/
def cycleRecord (A : BuchiAutomaton) (pword lword : Str) (entry : Int)
    (cyc : CycleResult) : DbaCycleEvaluation :=
  { accepted := cycleAccepting A cyc,
    cycle := cyc.cycleStates.map (indexToState A),
    prefixWord := pword, loopWord := lword,
    entryState := indexToState A entry,
    reason := cyc.reason }

/-- The first driver's fallback record when a prefix candidate has no
accepting loop candidate and no firstNonAccepting record was stored. -/
def noLoopRecord (A : BuchiAutomaton) (p : StateTransform) (entry : Int)
    (sawLoop : Bool) : DbaCycleEvaluation :=
  { accepted := false, cycle := [], prefixWord := p.word, loopWord := [],
    entryState := indexToState A entry,
    reason := if sawLoop then "All cycles for this prefix avoid accepting states."
      else "No valid loop for this prefix." }

/-- The final fallback record of both drivers. -/
def noValidRunRecord (A : BuchiAutomaton) (initialIndex : Nat) : DbaCycleEvaluation :=
  { accepted := false, cycle := [], prefixWord := [], loopWord := [],
    entryState := indexToState A (initialIndex : Int),
    reason := "No valid run for the given ω-word (stuck on a transition)." }

/-- The fuel both drivers pass to findPeriodicCycle: the (state index,
position) pair space has at most states.length * loopWord.length
elements, and every non-returning iteration records a fresh pair. -/
def fpcFuel (A : BuchiAutomaton) (lword : Str) : Nat :=
  A.states.length * lword.length + 1

/-- The JavaScript x ?? y fallback for evaluation records. -/
def orDefault (o : Option DbaCycleEvaluation) (r : DbaCycleEvaluation) : DbaCycleEvaluation :=
  match o with
  | some f => f
  | none => r

/-- The inner for-loop over loop candidates of the first driver
(dba.ts lines 78-123), carrying firstNonAccepting and sawLoop; returns
(acceptingForPrefix, firstNonAccepting, sawLoop). -/
def innerLoopV1 (A : BuchiAutomaton) (step : Int → Str → Int) (pword : Str) (entry : Int) :
    List StateTransform → Option DbaCycleEvaluation → Bool →
    Option (Option DbaCycleEvaluation × Option DbaCycleEvaluation × Bool)
  | [], firstNonAccepting, sawLoop => some (none, firstNonAccepting, sawLoop)
  | l :: rest, firstNonAccepting, sawLoop =>
    match findPeriodicCycle entry l.word step (fpcFuel A l.word) with
    | none => none
    | some none =>
      innerLoopV1 A step pword entry rest
        (some (orDefault firstNonAccepting (loopStuckRecord A pword l.word entry))) sawLoop
    | some (some cyc) =>
      let result := cycleRecord A pword l.word entry cyc
      if result.accepted then some (some result, firstNonAccepting, true)
      else
        innerLoopV1 A step pword entry rest
          (some (orDefault firstNonAccepting result)) true

/-- The outer for-loop over prefix candidates of the first driver
(dba.ts lines 60-144), carrying sampleAccept.  some none means the loop
finished with a null sampleAccept. -/
def outerLoopV1 (A : BuchiAutomaton) (step : Int → Str → Int)
    (loopTransforms : List StateTransform) (initialIndex : Nat) :
    List StateTransform → Option DbaCycleEvaluation → Option (Option DbaCycleEvaluation)
  | [], sampleAccept => some sampleAccept
  | p :: rest, sampleAccept =>
    match runWord p.word (initialIndex : Int) step with
    | none => some (some (prefixStuckRecord A p))
    | some entry =>
      match innerLoopV1 A step p.word entry loopTransforms none false with
      | none => none
      | some (acceptingForPrefix, firstNonAccepting, sawLoop) =>
        match acceptingForPrefix with
        | none =>
          some (some (orDefault firstNonAccepting (noLoopRecord A p entry sawLoop)))
        | some acc =>
          outerLoopV1 A step loopTransforms initialIndex rest
            (some (orDefault sampleAccept acc))

/-- shared/dba.ts lines 22-156: the first dbaEvaluateOmegaWord.  The
result is none only on fuel exhaustion inside starClosure or
findPeriodicCycle, both proved unreachable. -/
def dbaEvaluateOmegaWord (A : BuchiAutomaton) (word : ParsedOmegaWord) :
    Option DbaCycleEvaluation :=
  let step := buildStep A
  let lt := buildLetterTransforms A
  match evaluateRegex lt A.states.length word.pfx with
  | none => none
  | some prefixTransforms =>
    match evalNode lt A.states.length word.omega with
    | none => none
    | some loopTransforms =>
      match stateToIndex A.states A.initial with
      | none => some (initialMissingRecord A)
      | some initialIndex =>
        match outerLoopV1 A step loopTransforms initialIndex prefixTransforms none with
        | none => none
        | some (some r) => some r
        | some none => some (noValidRunRecord A initialIndex)

/-- The inner for-loop over loop candidates of the second driver
(dba.ts lines 482-505), carrying fallback; a stuck loop is skipped
without recording anything. -/
def innerLoopV2 (A : BuchiAutomaton) (step : Int → Str → Int) (pword : Str) (entry : Int) :
    List StateTransform → Option DbaCycleEvaluation →
    Option (Option DbaCycleEvaluation × Option DbaCycleEvaluation)
  | [], fallback => some (none, fallback)
  | l :: rest, fallback =>
    match findPeriodicCycle entry l.word step (fpcFuel A l.word) with
    | none => none
    | some none => innerLoopV2 A step pword entry rest fallback
    | some (some cyc) =>
      let result := cycleRecord A pword l.word entry cyc
      if result.accepted then some (some result, fallback)
      else
        innerLoopV2 A step pword entry rest
          (some (orDefault fallback result))

/-- The outer for-loop over prefix candidates of the second driver
(dba.ts lines 478-506): a stuck prefix is skipped, an accepting result
returns immediately, and the fallback is carried across prefixes. -/
def outerLoopV2 (A : BuchiAutomaton) (step : Int → Str → Int)
    (loopTransforms : List StateTransform) (initialIndex : Nat) :
    List StateTransform → Option DbaCycleEvaluation → Option (Option DbaCycleEvaluation)
  | [], fallback => some fallback
  | p :: rest, fallback =>
    match runWord p.word (initialIndex : Int) step with
    | none => outerLoopV2 A step loopTransforms initialIndex rest fallback
    | some entry =>
      match innerLoopV2 A step p.word entry loopTransforms fallback with
      | none => none
      | some (some acc, _) => some (some acc)
      | some (none, fallback2) =>
        outerLoopV2 A step loopTransforms initialIndex rest fallback2

/-- shared/dba.ts lines 451-518: the second dbaEvaluateOmegaWord.  The
helpers of the two source copies are character-for-character identical
up to formatting, so both drivers share the embeddings above. -/
def dbaEvaluateOmegaWordV2 (A : BuchiAutomaton) (word : ParsedOmegaWord) :
    Option DbaCycleEvaluation :=
  let step := buildStep A
  let lt := buildLetterTransforms A
  match evaluateRegex lt A.states.length word.pfx with
  | none => none
  | some prefixTransforms =>
    match evalNode lt A.states.length word.omega with
    | none => none
    | some loopTransforms =>
      match stateToIndex A.states A.initial with
      | none => some (initialMissingRecord A)
      | some initialIndex =>
        match outerLoopV2 A step loopTransforms initialIndex prefixTransforms none with
        | none => none
        | some (some r) => some r
        | some none => some (noValidRunRecord A initialIndex)

/-- Parser failures: a RegexParseError with its message, or fuel
exhaustion.  Fuel exhaustion is a model artifact (proved unreachable for
the wrapper's fuel); parseOmegaWord maps it to the same generic message
a non-RegexParseError exception receives in the source catch. -/
inductive ParseErr where
  | regexErr (msg : String)
  | fuelOut
deriving DecidableEq

/-- The whitespace test of the source. JavaScript tests with the regex
class of whitespace; Char.isWhitespace renders its ASCII part, which is
what the claims exercise. -/
def isSpace (c : Char) : Bool := c.isWhitespace

/-- peek at a cursor: the character there, none at or past the end (the
source returns the empty string there). -/
def peekC (input : List Char) (i : Nat) : Option Char := input.get? i

/-- skipWhitespace: advance the cursor past consecutive whitespace. -/
def skipWs (input : List Char) (i : Nat) : Nat :=
  i + ((input.drop i).takeWhile isSpace).length

/-- isLiteralChar(char): a present character outside the reserved set
that is not whitespace (the empty peek is handled by the callers). -/
def isLiteralChar (c : Char) : Bool :=
  decide (c ∉ ['(', ')', '|', '*', '+', '^']) && !(isSpace c)

/-- The message thrown for an unexpected character (the empty string
when peeking past the end). -/
def unexpectedCharMsg (c : Option Char) (i : Nat) : String :=
  "Unexpected character \"" ++
    (match c with
     | some ch => String.singleton ch
     | none => "") ++
    "\" at position " ++ toString i ++ "."

/-- branches.length === 1 ? branches[0] : union node. -/
def mkUnionNode : List RegexNode → RegexNode
  | [b] => b
  | bs => .union bs

/-- nodes.length === 1 ? nodes[0] : concat node. -/
def mkConcatNode : List RegexNode → RegexNode
  | [n] => n
  | ns => .concat ns

mutual

/-- parseUnion(): one concat branch, then the pipe loop. -/
def parseUnionF (fuel : Nat) (input : List Char) (i : Nat) :
    Except ParseErr (RegexNode × Nat) :=
  match fuel with
  | 0 => .error .fuelOut
  | f + 1 =>
    match parseConcatF f input i with
    | .error e => .error e
    | .ok (first, i1) => unionLoopF f input [first] (skipWs input i1)
termination_by structural fuel

/-- The while (this.match("|")) loop of parseUnion. -/
def unionLoopF (fuel : Nat) (input : List Char) (branches : List RegexNode) (i : Nat) :
    Except ParseErr (RegexNode × Nat) :=
  match fuel with
  | 0 => .error .fuelOut
  | f + 1 =>
    if peekC input i = some '|' then
      match parseConcatF f input (i + 1) with
      | .error e => .error e
      | .ok (nxt, i2) => unionLoopF f input (branches ++ [nxt]) (skipWs input i2)
    else .ok (mkUnionNode branches, i)
termination_by structural fuel

/-- parseConcat(): skip whitespace, gather repeats until ), | or the
end; empty gathers are the missing-expression error. -/
def parseConcatF (fuel : Nat) (input : List Char) (i : Nat) :
    Except ParseErr (RegexNode × Nat) :=
  match fuel with
  | 0 => .error .fuelOut
  | f + 1 =>
    match concatLoopF f input [] (skipWs input i) with
    | .error e => .error e
    | .ok (nodes, j) =>
      if nodes.isEmpty then .error (.regexErr "Missing expression before operator.")
      else .ok (mkConcatNode nodes, j)
termination_by structural fuel

/-- The while (!this.isAtEnd()) loop of parseConcat. -/
def concatLoopF (fuel : Nat) (input : List Char) (nodes : List RegexNode) (i : Nat) :
    Except ParseErr (List RegexNode × Nat) :=
  match fuel with
  | 0 => .error .fuelOut
  | f + 1 =>
    match peekC input i with
    | none => .ok (nodes, i)
    | some c =>
      if c = ')' ∨ c = '|' then .ok (nodes, i)
      else
        match parseRepeatF f input i with
        | .error e => .error e
        | .ok (node, i2) => concatLoopF f input (nodes ++ [node]) (skipWs input i2)
termination_by structural fuel

/-- parseRepeat(): a primary followed by the postfix loop. -/
def parseRepeatF (fuel : Nat) (input : List Char) (i : Nat) :
    Except ParseErr (RegexNode × Nat) :=
  match fuel with
  | 0 => .error .fuelOut
  | f + 1 =>
    match parsePrimaryF f input i with
    | .error e => .error e
    | .ok (node, i1) => repeatLoopF f input node i1
termination_by structural fuel

/-- The postfix while (true) loop of parseRepeat: whitespace is skipped
at each loop entry; * and + wrap and continue; ^w or ^ω wraps in omega
and, because omegaApplied breaks at the next loop entry after its
whitespace skip, returns with the whitespace after it consumed; any
other character breaks. -/
def repeatLoopF (fuel : Nat) (input : List Char) (node : RegexNode) (i : Nat) :
    Except ParseErr (RegexNode × Nat) :=
  match fuel with
  | 0 => .error .fuelOut
  | f + 1 =>
    let j := skipWs input i
    match peekC input j with
    | none => .ok (node, j)
    | some c =>
      if c = '*' then repeatLoopF f input (.star node) (j + 1)
      else if c = '+' then repeatLoopF f input (.plus node) (j + 1)
      else if c = '^' then
        match peekC input (j + 1) with
        | none => .error (.regexErr "Expected \"w\" or \"ω\" right after \"^\".")
        | some c2 =>
          if c2 = 'w' ∨ c2 = 'ω' then .ok (.omega node, skipWs input (j + 2))
          else .error (.regexErr "Expected \"w\" or \"ω\" right after \"^\".")
      else .ok (node, j)
termination_by structural fuel

/-- parsePrimary(): parenthesized union or a single literal character. -/
def parsePrimaryF (fuel : Nat) (input : List Char) (i : Nat) :
    Except ParseErr (RegexNode × Nat) :=
  match fuel with
  | 0 => .error .fuelOut
  | f + 1 =>
    let j := skipWs input i
    match peekC input j with
    | none => .error (.regexErr (unexpectedCharMsg none j))
    | some c =>
      if c = '(' then
        match parseUnionF f input (j + 1) with
        | .error e => .error e
        | .ok (node, i2) =>
          let k := skipWs input i2
          if peekC input k = some ')' then .ok (node, k + 1)
          else .error (.regexErr "Missing closing parenthesis.")
      else if isLiteralChar c then .ok (.literal [c], j + 1)
      else .error (.regexErr (unexpectedCharMsg (some c) j))
termination_by structural fuel

end

/-- Fuel that always suffices for the parser: every chain of six nested
calls consumes at least one character. -/
def parseFuel (input : List Char) : Nat := 6 * input.length + 6

/-- RegexParser.parse(): parse a union, then require the end of the
input after trailing whitespace. -/
def parseTop (fuel : Nat) (input : List Char) : Except ParseErr RegexNode :=
  match parseUnionF fuel input (skipWs input 0) with
  | .error e => .error e
  | .ok (expr, i) =>
    let j := skipWs input i
    match peekC input j with
    | some c => .error (.regexErr (unexpectedCharMsg (some c) j))
    | none => .ok expr

mutual

/-- The non-null recursion of countOmegaNodes: count omega nodes
anywhere in the tree. -/
def countOmega : RegexNode → Nat
  | .omega n => 1 + countOmega n
  | .star n => countOmega n
  | .plus n => countOmega n
  | .concat ns => countOmegaList ns
  | .union ns => countOmegaList ns
  | .literal _ => 0

/-- The reduce over children of countOmegaNodes. -/
def countOmegaList : List RegexNode → Nat
  | [] => 0
  | n :: rest => countOmega n + countOmegaList rest

end

/-- shared/utils: countOmegaNodes(node), with the null case. -/
def countOmegaNodes : Option RegexNode → Nat
  | none => 0
  | some n => countOmega n

/-- shared/utils: extractOmegaComponents(ast): the whole AST an omega
node, or a non-empty top-level concat whose last element is an omega
node; otherwise null. -/
def extractOmegaComponents (ast : RegexNode) : Option (Option RegexNode × RegexNode) :=
  match ast with
  | .omega n => some (none, n)
  | .concat ns =>
    match ns.getLast? with
    | some (.omega n) =>
      let prefixNodes := ns.dropLast
      some ((match prefixNodes with
             | [] => none
             | [x] => some x
             | xs => some (.concat xs)), n)
    | _ => none
  | _ => none

/-- raw.trim(): drop whitespace from both ends (the JavaScript trim,
over the character list). -/
def trimChars (l : List Char) : List Char :=
  ((l.dropWhile Char.isWhitespace).reverse.dropWhile Char.isWhitespace).reverse

/-- shared/utils: parseOmegaWord(raw).  The source catch turns a
RegexParseError into its message and any other exception into the
generic message; fuel exhaustion, the only non-RegexParseError failure
of the model, is mapped to the same generic message. -/
def parseOmegaWord (raw : String) : OmegaParseResult :=
  let trimmed := trimChars raw.toList
  if trimmed.isEmpty then .failure "Enter a non-empty ω-word (e.g., ab(ba)^w)."
  else
    let chars := trimmed
    match parseTop (parseFuel chars) chars with
    | .error (.regexErr m) => .failure m
    | .error .fuelOut => .failure "Failed to parse the expression."
    | .ok ast =>
      if countOmega ast = 0 then
        .failure "Add a ^w suffix to mark the infinite loop (e.g., ab(ba)^w)."
      else if countOmega ast > 1 then
        .failure "Only one ^w (or ^ω) suffix is allowed."
      else
        match extractOmegaComponents ast with
        | none => .failure "Place the ^w suffix at the end so the word looks like αβ^w."
        | some (pfx, om) => .success { pfx := pfx, omega := om, ast := ast }

/-! ### Predicates, spaces and sample inputs used by the proofs -/

/-- A key the worklist can reach: its length and its entries lie in the
computed length and entry spaces. -/
def KeyOK (base : List StateTransform) (size : Nat) (k : List Int) : Prop :=
  k.length ∈ scLens base size ∧ ∀ x ∈ k, x ∈ scEntries base size

/-- The worklist invariant: the seen set is exactly the closure keys in
order, the keys are distinct and reachable, the queue holds closure
members, and every closure member is waiting in the queue or has all
its base compositions recorded in seen. -/
structure ScInv (base : List StateTransform) (size : Nat)
    (closure queue : List StateTransform) (seen : List (List Int)) : Prop where
  hseen : seen = closure.map transformKey
  hnodup : seen.Nodup
  hkeys : ∀ t ∈ closure, KeyOK base size (transformKey t)
  hqueue : ∀ t ∈ queue, t ∈ closure
  hproc : ∀ t ∈ closure, t ∈ queue ∨ ∀ b ∈ base, transformKey (compose t b) ∈ seen

/-- A state transform over n states as the spec understands it: the map
is total over the n states and sends each to the -1 sentinel or a state
index. -/
def TransformWF (n : Nat) (t : StateTransform) : Prop :=
  t.map.length = n ∧ ∀ x ∈ t.map, x = -1 ∨ (0 ≤ x ∧ x < (n : Int))

instance (n : Nat) (t : StateTransform) : Decidable (TransformWF n t) := by
  unfold TransformWF
  infer_instance

/-- The canonical entry list for well-formed transforms: the sentinel
and the n state indices. -/
def sentinelEntries (n : Nat) : List Int :=
  (-1) :: (List.range n).map Int.ofNat

/-- A step function over n states: every result is the sentinel or an
index below n. -/
def StepBounded (step : Int → Str → Int) (n : Nat) : Prop :=
  ∀ s c, step s c = -1 ∨ (0 ≤ step s c ∧ step s c < (n : Int))

/-- The finite space of (state index, position) pairs the cycle search
can record. -/
def pairSpace (n L : Nat) : List (Int × Nat) :=
  ((List.range n).map Int.ofNat).flatMap fun s => (List.range L).map fun p => (s, p)

/-- The state reached after k steps of cyclically applying the loop
word from the entry state.  Total because the step function carries the
-1 sentinel; the search stops at the first sentinel, so indices past a
stuck step are never consulted. -/
def trajState (step : Int → Str → Int) (loopWord : Str) (entry : Int) : Nat → Int
  | 0 => entry
  | k + 1 =>
    step (trajState step loopWord entry k) [loopWord.getD (k % loopWord.length) 'x']

/-- The (state, position mod loop length) pair after k steps: the key
the search records in its visited map. -/
def trajPair (step : Int → Str → Int) (loopWord : Str) (entry : Int) (k : Nat) : Int × Nat :=
  (trajState step loopWord entry k, k % loopWord.length)

/-- A loop candidate accepts at an entry state: the driver's fueled
cycle search finds a cycle containing an accepting state. -/
def loopAccepts (A : BuchiAutomaton) (entry : Int) (l : StateTransform) : Prop :=
  ∃ cyc, findPeriodicCycle entry l.word (buildStep A) (fpcFuel A l.word) = some (some cyc) ∧
    cycleAccepting A cyc = true

/-- A prefix candidate is good: its word runs from the initial index to
some entry state and some loop candidate accepts there. -/
def prefixGood (A : BuchiAutomaton) (loops : List StateTransform) (initialIndex : Nat)
    (p : StateTransform) : Prop :=
  ∃ entry, runWord p.word (initialIndex : Int) (buildStep A) = some entry ∧
    ∃ l ∈ loops, loopAccepts A entry l

/-- A carried diagnostic record is always non-accepting. -/
def NonAcceptingOpt (o : Option DbaCycleEvaluation) : Prop :=
  ∀ f, o = some f → f.accepted = false

/-- The claimed placement: the omega node is the whole AST, or the last
element of a top-level concatenation. -/
def OmegaTrailing (ast : RegexNode) : Prop :=
  (∃ n, ast = .omega n) ∨
  (∃ ns n, ast = .concat ns ∧ ns.getLast? = some (.omega n))

/-- Spec side, from the words of claim C1: some prefix candidate
transform (the identity standing in when the prefix is absent, which is
what evaluateRegex returns for a null node) and some loop candidate
transform are such that the prefix candidate's word runs from the
initial state and repeating the loop candidate's word induces a
periodic cycle containing an accepting state. -/
def specAcceptingPairExists (A : BuchiAutomaton) (w : ParsedOmegaWord) : Prop :=
  ∃ pts lts i0,
    evaluateRegex (buildLetterTransforms A) A.states.length w.pfx = some pts ∧
    evalNode (buildLetterTransforms A) A.states.length w.omega = some lts ∧
    stateToIndex A.states A.initial = some i0 ∧
    ∃ p ∈ pts, prefixGood A lts i0 p

/-- One-state automaton over a, b with the single transition q-b->q and
q accepting. -/
def ceAutomatonAccepting : BuchiAutomaton :=
  { states := [['q']], alphabet := [['a'], ['b']], initial := ['q'],
    accepting := [['q']], transitions := [⟨['q'], ['b'], ['q']⟩] }

/-- The parsed word (a|b) b^w: the prefix regex has the two realizations
a (stuck) and b (runs), in that candidate order. -/
def ceWordUnionPrefix : ParsedOmegaWord :=
  { pfx := some (.union [.literal ['a'], .literal ['b']]), omega := .literal ['b'],
    ast := .concat [.union [.literal ['a'], .literal ['b']], .omega (.literal ['b'])] }

/-- The same automaton with no accepting states. -/
def ceAutomatonRejecting : BuchiAutomaton :=
  { states := [['q']], alphabet := [['a'], ['b']], initial := ['q'],
    accepting := [], transitions := [⟨['q'], ['b'], ['q']⟩] }

/-- The parsed word (b|a) b^w: the first prefix realization b runs and
loops without accepting, the second realization a gets stuck. -/
def ceWordUnionPrefixRev : ParsedOmegaWord :=
  { pfx := some (.union [.literal ['b'], .literal ['a']]), omega := .literal ['b'],
    ast := .concat [.union [.literal ['b'], .literal ['a']], .omega (.literal ['b'])] }

/-- The parsed word b^w with no prefix. -/
def ceWordPureLoop : ParsedOmegaWord :=
  { pfx := none, omega := .literal ['b'], ast := .omega (.literal ['b']) }

/-- buchi.ts sampleBuchiInput, entry "finitely-many-a", titled
"Finitely many a (eventually only b)": states q0, q1; alphabet a, b;
start q0; accept q1; transitions q0-a->q0, q0-b->q1, q1-a->q0,
q1-b->q1 (transcribed from the sample's source text). -/
def sampleFinitelyManyA : BuchiAutomaton :=
  { states := [['q', '0'], ['q', '1']], alphabet := [['a'], ['b']],
    initial := ['q', '0'], accepting := [['q', '1']],
    transitions := [⟨['q', '0'], ['a'], ['q', '0']⟩, ⟨['q', '0'], ['b'], ['q', '1']⟩,
      ⟨['q', '1'], ['a'], ['q', '0']⟩, ⟨['q', '1'], ['b'], ['q', '1']⟩] }

/-! ### General helper lemmas -/

theorem nodup_length_le_of_subset {α : Type} [DecidableEq α] {l₁ l₂ : List α}
    (h : l₁.Nodup) (hs : ∀ x ∈ l₁, x ∈ l₂) : l₁.length ≤ l₂.length :=
  calc l₁.length = l₁.toFinset.card := (List.toFinset_card_of_nodup h).symm
    _ ≤ l₂.toFinset.card :=
        Finset.card_le_card fun x hx => List.mem_toFinset.2 (hs x (List.mem_toFinset.1 hx))
    _ ≤ l₂.length := List.toFinset_card_le l₂

theorem mem_allLists {E : List Int} : ∀ {n : Nat} {k : List Int},
    k ∈ allLists E n ↔ k.length = n ∧ ∀ x ∈ k, x ∈ E := by
  intro n
  induction n with
  | zero =>
    intro k
    constructor
    · intro h
      simp only [allLists, List.mem_singleton] at h
      subst h
      simp
    · rintro ⟨hl, _⟩
      simp only [allLists, List.mem_singleton]
      exact List.length_eq_zero.1 hl
  | succ n ih =>
    intro k
    simp only [allLists, List.mem_flatMap, List.mem_map]
    constructor
    · rintro ⟨e, he, k', hk', rfl⟩
      obtain ⟨hl, hx⟩ := ih.1 hk'
      refine ⟨by simp [hl], ?_⟩
      intro x hx'
      rcases List.mem_cons.1 hx' with rfl | h
      · exact he
      · exact hx x h
    · rintro ⟨hl, hx⟩
      cases k with
      | nil => simp at hl
      | cons e k' =>
        exact ⟨e, hx e (by simp), k',
          ih.2 ⟨by simpa using hl, fun x hx' => hx x (by simp [hx'])⟩, rfl⟩

theorem allLists_length (E : List Int) : ∀ n, (allLists E n).length = E.length ^ n := by
  intro n
  induction n with
  | zero => simp [allLists]
  | succ n ih =>
    simp only [allLists, List.length_flatMap, List.map_map]
    have : (E.map fun e => ((allLists E n).map fun k => e :: k).length) =
        E.map fun _ => E.length ^ n := by
      refine List.map_congr_left fun e _ => ?_
      simp [ih]
    rw [Function.comp_def]
    calc (E.map fun e => ((allLists E n).map fun k => e :: k).length).sum
        = (E.map fun _ => E.length ^ n).sum := by rw [this]
      _ = E.length * E.length ^ n := by
          rw [List.map_const', List.sum_replicate, smul_eq_mul]
      _ = E.length ^ (n + 1) := by ring

theorem getD_mem_or_eq (l : List Int) (n : Nat) (d : Int) :
    l.getD n d ∈ l ∨ l.getD n d = d := by
  rcases h : l.get? n with _ | a
  · right
    rw [List.getD_eq_getD_get?, h]
    rfl
  · left
    rw [List.getD_eq_getD_get?, h]
    exact List.get?_mem h

theorem compose_map_length (a b : StateTransform) :
    (compose a b).map.length = a.map.length := by
  simp [compose]

theorem compose_map_mem (a b : StateTransform) :
    ∀ x ∈ (compose a b).map, x = -1 ∨ x ∈ b.map := by
  intro x hx
  simp only [compose, List.mem_map] at hx
  obtain ⟨t, _, rfl⟩ := hx
  by_cases h1 : t = -1
  · simp [h1]
  · by_cases h2 : t < 0
    · simp [h1, h2]
    · simp only [h1, h2, if_false]
      rcases getD_mem_or_eq b.map t.toNat (-1) with h | h
    
      · right; exact h
      · left; exact h

theorem dedupeAux_subset : ∀ (l : List StateTransform) (seen : List (List Int)),
    ∀ t ∈ dedupeAux l seen, t ∈ l := by
  intro l
  induction l with
  | nil => intro seen t ht; simp [dedupeAux] at ht
  | cons a l ih =>
    intro seen t ht
    simp only [dedupeAux] at ht
    by_cases h : transformKey a ∈ seen
    · simp only [h, if_true] at ht
      exact List.mem_cons_of_mem _ (ih seen t ht)
    · simp only [h, if_false, List.mem_cons] at ht
      rcases ht with rfl | ht
      · exact List.mem_cons_self _ _
      · exact List.mem_cons_of_mem _ (ih _ t ht)

theorem dedupeAux_keys : ∀ (l : List StateTransform) (seen : List (List Int)),
    ((dedupeAux l seen).map transformKey).Nodup ∧
    ∀ k ∈ (dedupeAux l seen).map transformKey, k ∉ seen := by
  intro l
  induction l with
  | nil => intro seen; simp [dedupeAux]
  | cons a l ih =>
    intro seen
    simp only [dedupeAux]
    by_cases h : transformKey a ∈ seen
    · simpa [h] using ih seen
    · obtain ⟨hnd, hout⟩ := ih (transformKey a :: seen)
      simp only [h, if_false, List.map_cons, List.nodup_cons]
      refine ⟨⟨?_, hnd⟩, ?_⟩
      · intro hmem
        exact hout _ hmem (List.mem_cons_self _ _)
      · intro k hk
        rcases List.mem_cons.1 hk with rfl | hk'
        · exact h
        · intro hks
          exact hout _ hk' (List.mem_cons_of_mem _ hks)

/-! ### Star closure: invariants, termination and closure properties -/

theorem keyOK_iff_mem_scSpace {base : List StateTransform} {size : Nat} {k : List Int} :
    KeyOK base size k ↔ k ∈ scSpace base size := by
  unfold KeyOK scSpace
  simp only [List.mem_flatMap]
  constructor
  · rintro ⟨hl, hx⟩
    exact ⟨k.length, hl, mem_allLists.2 ⟨rfl, hx⟩⟩
  · rintro ⟨L, hL, hk⟩
    obtain ⟨rfl, hx⟩ := mem_allLists.1 hk
    exact ⟨hL, hx⟩

theorem keyOK_compose {base : List StateTransform} {size : Nat} {t b : StateTransform}
    (ht : KeyOK base size (transformKey t)) (hb : b ∈ base) :
    KeyOK base size (transformKey (compose t b)) := by
  obtain ⟨hl, _⟩ := ht
  constructor
  · simpa [transformKey, compose_map_length] using hl
  · intro x hx
    rcases compose_map_mem t b x hx with rfl | hx'
    · simp [scEntries]
    · simp only [scEntries, List.mem_cons, List.mem_append, List.mem_flatMap]
      right; right
      exact ⟨b, hb, hx'⟩

theorem keyOK_identity (base : List StateTransform) (size : Nat) :
    KeyOK base size (transformKey (identityTransform size)) := by
  constructor
  · simp [transformKey, identityTransform, scLens, List.mem_dedup]
  · intro x hx
    simp only [transformKey, identityTransform, List.mem_map, List.mem_range] at hx
    obtain ⟨i, hi, rfl⟩ := hx
    simp only [scEntries, List.mem_cons, List.mem_append, List.mem_map, List.mem_range]
    right; left
    exact ⟨i, hi, rfl⟩

theorem keyOK_base {base : List StateTransform} {size : Nat} {b : StateTransform}
    (hb : b ∈ base) : KeyOK base size (transformKey b) := by
  constructor
  · simp only [scLens, List.mem_dedup, List.mem_cons]
    right
    exact List.mem_map_of_mem _ hb
  · intro x hx
    simp only [scEntries, List.mem_cons, List.mem_append, List.mem_flatMap]
    right; right
    exact ⟨b, hb, hx⟩

theorem scStep_fold_spec (current : StateTransform) :
    ∀ (bs : List StateTransform) (cl q : List StateTransform) (sn : List (List Int)),
    ∃ news : List StateTransform,
      bs.foldl (fun acc b =>
          let composed := compose current b
          if transformKey composed ∈ acc.2.2 then acc
          else (acc.1 ++ [composed], acc.2.1 ++ [composed], acc.2.2 ++ [transformKey composed]))
        (cl, q, sn) = (cl ++ news, q ++ news, sn ++ news.map transformKey) ∧
      (∀ t ∈ news, ∃ b ∈ bs, t = compose current b) ∧
      (sn.Nodup → (sn ++ news.map transformKey).Nodup) ∧
      (∀ b ∈ bs, transformKey (compose current b) ∈ sn ++ news.map transformKey) := by
  intro bs
  induction bs with
  | nil =>
    intro cl q sn
    exact ⟨[], by simp, by simp, fun h => by simpa using h, by simp⟩
  | cons b bs ih =>
    intro cl q sn
    by_cases hk : transformKey (compose current b) ∈ sn
    · obtain ⟨news, heq, hmem, hnd, hall⟩ := ih cl q sn
      refine ⟨news, ?_, ?_, hnd, ?_⟩
      · simpa [List.foldl_cons, hk] using heq
      · intro t ht
        obtain ⟨b', hb', rfl⟩ := hmem t ht
        exact ⟨b', List.mem_cons_of_mem _ hb', rfl⟩
      · intro b' hb'
        rcases List.mem_cons.1 hb' with rfl | hb''
        · exact List.mem_append_left _ hk
        · exact hall b' hb''
    · obtain ⟨news, heq, hmem, hnd, hall⟩ :=
        ih (cl ++ [compose current b]) (q ++ [compose current b])
          (sn ++ [transformKey (compose current b)])
      refine ⟨compose current b :: news, ?_, ?_, ?_, ?_⟩
      · rw [List.foldl_cons]
        simp only [hk, if_false]
        rw [heq]
        simp
      · intro t ht
        rcases List.mem_cons.1 ht with rfl | ht'
        · exact ⟨b, List.mem_cons_self _ _, rfl⟩
        · obtain ⟨b', hb', rfl⟩ := hmem t ht'
          exact ⟨b', List.mem_cons_of_mem _ hb', rfl⟩
      · intro hsn
        have h1 : (sn ++ [transformKey (compose current b)]).Nodup := by
          simp only [List.nodup_append, List.nodup_cons, List.nodup_nil]
          exact ⟨hsn, by simp, by simpa using hk⟩
        have := hnd h1
        simpa using this
      · intro b' hb'
        rcases List.mem_cons.1 hb' with rfl | hb''
        · simp
        · have := hall b' hb''
          simpa using this

theorem scStep_spec (base : List StateTransform) (current : StateTransform)
    (cl q : List StateTransform) (sn : List (List Int)) :
    ∃ news : List StateTransform,
      scStep base current (cl, q, sn) = (cl ++ news, q ++ news, sn ++ news.map transformKey) ∧
      (∀ t ∈ news, ∃ b ∈ base, t = compose current b) ∧
      (sn.Nodup → (sn ++ news.map transformKey).Nodup) ∧
      (∀ b ∈ base, transformKey (compose current b) ∈ sn ++ news.map transformKey) :=
  scStep_fold_spec current base cl q sn

theorem scAux_master (base : List StateTransform) (size : Nat) :
    ∀ (fuel : Nat) (closure queue : List StateTransform) (seen : List (List Int)),
    ScInv base size closure queue seen →
    queue.length + (scSpace base size).length + 1 ≤ fuel + seen.length →
    ∃ c, starClosureAux base fuel (closure, queue, seen) = some c ∧
      closure <+: c ∧
      (c.map transformKey).Nodup ∧
      (∀ t ∈ c, KeyOK base size (transformKey t)) ∧
      (∀ t ∈ c, ∀ b ∈ base, transformKey (compose t b) ∈ c.map transformKey) := by
  intro fuel
  induction fuel with
  | zero =>
    intro closure queue seen inv hb
    exfalso
    have hsub : ∀ k ∈ seen, k ∈ scSpace base size := by
      intro k hk
      rw [inv.hseen] at hk
      obtain ⟨t, ht, rfl⟩ := List.mem_map.1 hk
      exact keyOK_iff_mem_scSpace.1 (inv.hkeys t ht)
    have := nodup_length_le_of_subset inv.hnodup hsub
    omega
  | succ fuel ih =>
    intro closure queue seen inv hb
    rcases hq : queue.getLast? with _ | current
    · have hqnil : queue = [] := List.getLast?_eq_none_iff.1 hq
      subst hqnil
      refine ⟨closure, ?_, List.prefix_refl _, ?_, inv.hkeys, ?_⟩
      · simp [starClosureAux]
      · rw [← inv.hseen]
        exact inv.hnodup
      · intro t ht b hbb
        rcases inv.hproc t ht with h | h
        · simp at h
        · rw [← inv.hseen]
          exact h b hbb
    · have hqeq : queue.dropLast ++ [current] = queue :=
        List.dropLast_append_getLast? current hq
      have hcur_q : current ∈ queue := by
        rw [← hqeq]
        simp
      have hcur : current ∈ closure := inv.hqueue current hcur_q
      obtain ⟨news, heq, hmem, hnd, hall⟩ :=
        scStep_spec base current closure queue.dropLast seen
      have hstep : starClosureAux base (fuel + 1) (closure, queue, seen) =
          starClosureAux base fuel (scStep base current (closure, queue.dropLast, seen)) := by
        simp [starClosureAux, hq]
      have hlen : queue.dropLast.length + 1 = queue.length := by
        rw [← hqeq]
        simp
      have inv' : ScInv base size (closure ++ news) (queue.dropLast ++ news)
          (seen ++ news.map transformKey) := by
        refine ⟨?_, ?_, ?_, ?_, ?_⟩
        · rw [inv.hseen, List.map_append]
        · exact hnd inv.hnodup
        · intro t ht
          rcases List.mem_append.1 ht with h | h
          · exact inv.hkeys t h
          · obtain ⟨b, hbb, rfl⟩ := hmem t h
            exact keyOK_compose (inv.hkeys current hcur) hbb
        · intro t ht
          rcases List.mem_append.1 ht with h | h
          · exact List.mem_append_left _ (inv.hqueue t (List.mem_of_mem_dropLast h))
          · exact List.mem_append_right _ h
        · intro t ht
          rcases List.mem_append.1 ht with h | h
          · rcases inv.hproc t h with h' | h'
            · rw [← hqeq] at h'
              rcases List.mem_append.1 h' with h'' | h''
              · exact Or.inl (List.mem_append_left _ h'')
              · have : t = current := by simpa using h''
                subst this
                exact Or.inr fun b hbb => hall b hbb
            · exact Or.inr fun b hbb => List.mem_append_left _ (h' b hbb)
          · exact Or.inl (List.mem_append_right _ h)
      have hb' : (queue.dropLast ++ news).length + (scSpace base size).length + 1 ≤
          fuel + (seen ++ news.map transformKey).length := by
        simp only [List.length_append, List.length_map]
        omega
      obtain ⟨c, hc, hpre, hnodup, hkeys, hclosed⟩ := ih _ _ _ inv' hb'
      refine ⟨c, ?_, ?_, hnodup, hkeys, hclosed⟩
      · rw [hstep, heq]
        exact hc
      · exact ((List.prefix_append closure news).trans hpre)

theorem initClosure_keys_nodup (base : List StateTransform) (size : Nat) :
    ((initClosure base size).map transformKey).Nodup :=
  (dedupeAux_keys _ _).1

theorem initClosure_keyOK (base : List StateTransform) (size : Nat) :
    ∀ t ∈ initClosure base size, KeyOK base size (transformKey t) := by
  intro t ht
  have := dedupeAux_subset _ _ t ht
  rcases List.mem_cons.1 this with rfl | hbb
  · exact keyOK_identity base size
  · exact keyOK_base hbb

theorem identity_mem_initClosure (base : List StateTransform) (size : Nat) :
    identityTransform size ∈ initClosure base size := by
  unfold initClosure dedupe
  simp only [dedupeAux, List.not_mem_nil, if_false]
  exact List.mem_cons_self _ _

theorem starClosure_spec (base : List StateTransform) (size : Nat) :
    ∃ c, starClosure base size = some c ∧
      initClosure base size <+: c ∧
      (c.map transformKey).Nodup ∧
      (∀ t ∈ c, KeyOK base size (transformKey t)) ∧
      (∀ t ∈ c, ∀ b ∈ base, transformKey (compose t b) ∈ c.map transformKey) := by
  have inv : ScInv base size (initClosure base size) (initClosure base size)
      ((initClosure base size).map transformKey) :=
    { hseen := rfl
      hnodup := initClosure_keys_nodup base size
      hkeys := initClosure_keyOK base size
      hqueue := fun t ht => ht
      hproc := fun t ht => Or.inl ht }
  have hb : (initClosure base size).length + (scSpace base size).length + 1 ≤
      sufficientFuel base size + ((initClosure base size).map transformKey).length := by
    simp only [sufficientFuel, List.length_map]
    omega
  exact scAux_master base size _ _ _ _ inv hb

theorem starClosure_isSome (base : List StateTransform) (size : Nat) :
    (starClosure base size).isSome := by
  obtain ⟨c, hc, -, -, -, -⟩ := starClosure_spec base size
  simp [hc]

mutual

theorem evalNode_isSome (lt : Str → Option StateTransform) (size : Nat) :
    ∀ node : RegexNode, (evalNode lt size node).isSome
  | .literal v => by simp [evalNode]
  | .concat ns => by
    simp only [evalNode]
    exact evalConcatList_isSome lt size ns [identityTransform size]
  | .union ns => by
    simp only [evalNode]
    obtain ⟨ts, hts⟩ := Option.isSome_iff_exists.1 (evalUnionList_isSome lt size ns)
    rw [hts]
    simp
  | .star node => by
    simp only [evalNode]
    obtain ⟨b, hb⟩ := Option.isSome_iff_exists.1 (evalNode_isSome lt size node)
    rw [hb]
    exact starClosure_isSome b size
  | .plus node => by
    simp only [evalNode]
    obtain ⟨b, hb⟩ := Option.isSome_iff_exists.1 (evalNode_isSome lt size node)
    obtain ⟨cl, hcl⟩ := Option.isSome_iff_exists.1 (starClosure_isSome b size)
    rw [hb]
    simp [hcl]
  | .omega node => by
    simp only [evalNode]
    exact evalNode_isSome lt size node

theorem evalConcatList_isSome (lt : Str → Option StateTransform) (size : Nat) :
    ∀ (ns : List RegexNode) (acc : List StateTransform),
      (evalConcatList lt size ns acc).isSome
  | [], _ => by simp [evalConcatList]
  | c :: rest, acc => by
    simp only [evalConcatList]
    obtain ⟨ts, hts⟩ := Option.isSome_iff_exists.1 (evalNode_isSome lt size c)
    rw [hts]
    exact evalConcatList_isSome lt size rest (combine acc ts)

theorem evalUnionList_isSome (lt : Str → Option StateTransform) (size : Nat) :
    ∀ ns : List RegexNode, (evalUnionList lt size ns).isSome
  | [] => by simp [evalUnionList]
  | c :: rest => by
    simp only [evalUnionList]
    obtain ⟨ts, hts⟩ := Option.isSome_iff_exists.1 (evalNode_isSome lt size c)
    rw [hts]
    obtain ⟨rs, hrs⟩ := Option.isSome_iff_exists.1 (evalUnionList_isSome lt size rest)
    rw [hrs]
    simp

end

theorem evaluateRegex_isSome (lt : Str → Option StateTransform) (size : Nat) :
    ∀ node? : Option RegexNode, (evaluateRegex lt size node?).isSome
  | none => by simp [evaluateRegex]
  | some node => evalNode_isSome lt size node

/-! ### Well-formed transforms and the closure size bound -/

theorem mem_sentinelEntries {n : Nat} {x : Int} :
    x ∈ sentinelEntries n ↔ x = -1 ∨ (0 ≤ x ∧ x < (n : Int)) := by
  simp only [sentinelEntries, List.mem_cons, List.mem_map, List.mem_range,
    Int.ofNat_eq_natCast]
  constructor
  · rintro (rfl | ⟨i, hi, rfl⟩)
    · exact Or.inl rfl
    · right
      refine ⟨by positivity, ?_⟩
      omega
  · rintro (rfl | ⟨h0, hn⟩)
    · exact Or.inl rfl
    · right
      refine ⟨x.toNat, ?_, ?_⟩ <;> omega

theorem sentinelEntries_length (n : Nat) : (sentinelEntries n).length = n + 1 := by
  simp [sentinelEntries]

theorem scLens_eq_of_WF {base : List StateTransform} {size : Nat}
    (hWF : ∀ b ∈ base, TransformWF size b) :
    ∀ L ∈ scLens base size, L = size := by
  intro L hL
  rw [scLens, List.mem_dedup] at hL
  rcases List.mem_cons.1 hL with rfl | hL'
  · rfl
  · obtain ⟨b, hb, rfl⟩ := List.mem_map.1 hL'
    exact (hWF b hb).1

theorem scEntries_sub_of_WF {base : List StateTransform} {size : Nat}
    (hWF : ∀ b ∈ base, TransformWF size b) :
    ∀ x ∈ scEntries base size, x ∈ sentinelEntries size := by
  intro x hx
  rw [mem_sentinelEntries]
  rcases List.mem_cons.1 hx with rfl | hx'
  · exact Or.inl rfl
  · rcases List.mem_append.1 hx' with h | h
    · obtain ⟨i, hi, rfl⟩ := List.mem_map.1 h
      rw [List.mem_range] at hi
      right
      simp only [Int.ofNat_eq_natCast]
      refine ⟨by positivity, ?_⟩
      omega
    · obtain ⟨b, hb, hxb⟩ := List.mem_flatMap.1 h
      exact (hWF b hb).2 x hxb

theorem closure_length_le_of_WF {base : List StateTransform} {size : Nat}
    (hWF : ∀ b ∈ base, TransformWF size b)
    {c : List StateTransform} (hnodup : (c.map transformKey).Nodup)
    (hkeys : ∀ t ∈ c, KeyOK base size (transformKey t)) :
    c.length ≤ (size + 1) ^ size := by
  have hsub : ∀ k ∈ c.map transformKey, k ∈ allLists (sentinelEntries size) size := by
    intro k hk
    obtain ⟨t, ht, rfl⟩ := List.mem_map.1 hk
    obtain ⟨hl, hx⟩ := hkeys t ht
    refine mem_allLists.2 ⟨scLens_eq_of_WF hWF _ hl, ?_⟩
    intro x hxk
    exact scEntries_sub_of_WF hWF x (hx x hxk)
  have := nodup_length_le_of_subset hnodup hsub
  rw [allLists_length, sentinelEntries_length] at this
  simpa using this

/-! ### The periodic-cycle search: fuel sufficiency -/

theorem mem_pairSpace {n L : Nat} {s : Int} {p : Nat} :
    (s, p) ∈ pairSpace n L ↔ (0 ≤ s ∧ s < (n : Int)) ∧ p < L := by
  simp only [pairSpace, List.mem_flatMap, List.mem_map, List.mem_range,
    Int.ofNat_eq_natCast]
  constructor
  · rintro ⟨x, ⟨i, hi, rfl⟩, q, hq, h⟩
    cases h
    exact ⟨⟨by positivity, by omega⟩, hq⟩
  · rintro ⟨⟨h0, hn⟩, hp⟩
    exact ⟨s, ⟨s.toNat, by omega, by omega⟩, p, hp, rfl⟩

theorem pairSpace_length (n L : Nat) : (pairSpace n L).length = n * L := by
  simp only [pairSpace, List.length_flatMap, List.map_map, Function.comp_def,
    List.length_map, List.length_range]
  rw [List.map_const']
  simp [List.sum_replicate, smul_eq_mul]

theorem lookupPair_eq_none {seen : List ((Int × Nat) × Nat)} {key : Int × Nat} :
    lookupPair seen key = none ↔ key ∉ seen.map Prod.fst := by
  induction seen with
  | nil => simp [lookupPair]
  | cons a rest ih =>
    obtain ⟨k, v⟩ := a
    by_cases h : k = key
    · subst h
      simp [lookupPair]
    · simp only [lookupPair, h, if_false, List.map_cons, List.mem_cons]
      rw [ih]
      constructor
      · intro hk hc
        rcases hc with hc | hc
        · exact h hc.symm
        · exact hk hc
      · intro hk hc
        exact hk (Or.inr hc)

theorem lookupPair_mem {seen : List ((Int × Nat) × Nat)} {key : Int × Nat} {v : Nat}
    (h : lookupPair seen key = some v) : (key, v) ∈ seen := by
  induction seen with
  | nil => simp [lookupPair] at h
  | cons a rest ih =>
    obtain ⟨k, w⟩ := a
    by_cases hk : k = key
    · subst hk
      simp only [lookupPair, if_true, Option.some.injEq] at h
      subst h
      exact List.mem_cons_self _ _
    · simp only [lookupPair, hk, if_false] at h
      exact List.mem_cons_of_mem _ (ih h)

theorem fpcAux_isSome {step : Int → Str → Int} {n : Nat} (hstep : StepBounded step n)
    {loopWord : Str} (_hlw : loopWord.length ≠ 0) :
    ∀ (fuel : Nat) (seen : List ((Int × Nat) × Nat)) (path : List Int) (state : Int) (pos : Nat),
    0 ≤ state → state < (n : Int) → pos < loopWord.length →
    (seen.map Prod.fst).Nodup →
    (∀ k ∈ seen.map Prod.fst, k ∈ pairSpace n loopWord.length) →
    n * loopWord.length + 1 ≤ fuel + seen.length →
    (findPeriodicCycleAux step loopWord fuel seen path state pos).isSome := by
  intro fuel
  induction fuel with
  | zero =>
    intro seen path state pos h0 hn hpos hnodup hspace hb
    exfalso
    have hle := nodup_length_le_of_subset hnodup hspace
    rw [pairSpace_length] at hle
    simp only [List.length_map] at hle
    omega
  | succ fuel ih =>
    intro seen path state pos h0 hn hpos hnodup hspace hb
    rw [findPeriodicCycleAux]
    rcases hl : lookupPair seen (state, pos) with _ | start
    · simp only
      set seen2 := seen ++ [((state, pos), path.length - 1)] with hseen2
      rcases hstep state [loopWord.getD pos 'x'] with hs | ⟨hs0, hsn⟩
      · rw [hs]
        simp
      · have hne : ¬ step state [loopWord.getD pos 'x'] = -1 := by omega
        rw [if_neg hne]
        apply ih seen2 _ _ _ hs0 hsn (Nat.mod_lt _ (by omega))
        · simp only [hseen2, List.map_append, List.map_cons, List.map_nil]
          rw [List.nodup_append]
          refine ⟨hnodup, by simp, ?_⟩
          intro a ha hb'
          simp only [List.mem_singleton] at hb'
          subst hb'
          exact (lookupPair_eq_none.1 hl) ha
        · intro k hk
          simp only [hseen2, List.map_append, List.map_cons, List.map_nil,
            List.mem_append, List.mem_singleton] at hk
          rcases hk with hk | rfl
          · exact hspace k hk
          · exact mem_pairSpace.2 ⟨⟨h0, hn⟩, hpos⟩
        · simp only [hseen2, List.length_append, List.length_singleton]
          omega
    · simp

/-- The fuel both drivers pass to findPeriodicCycle suffices whenever
the entry state is an index below n and the step function is bounded
by n. -/
theorem findPeriodicCycle_isSome {step : Int → Str → Int} {n : Nat}
    (hstep : StepBounded step n) {entry : Int} (h0 : 0 ≤ entry) (hn : entry < (n : Int))
    (lw : Str) : (findPeriodicCycle entry lw step (n * lw.length + 1)).isSome := by
  by_cases h : lw.length = 0
  · simp [findPeriodicCycle, h]
  · rw [findPeriodicCycle, if_neg h]
    apply fpcAux_isSome hstep h _ _ _ _ _ h0 hn (by omega)
    · simp
    · simp
    · simp

theorem mem_of_getLast?_eq {α : Type} {l : List α} {x : α}
    (h : l.getLast? = some x) : x ∈ l := by
  obtain ⟨hne, rfl⟩ := List.mem_getLast?_eq_getLast (Option.mem_def.2 h)
  exact List.getLast_mem hne

theorem stateToIndex_lt {states : List Str} {s : Str} {i : Nat}
    (h : stateToIndex states s = some i) : i < states.length := by
  have hmem := mem_of_getLast?_eq h
  obtain ⟨p, hp, hpi⟩ := List.mem_filterMap.1 hmem
  by_cases hps : p.2 = s
  · simp only [hps, if_true, Option.some.injEq] at hpi
    subst hpi
    have h2 := List.mem_enum_iff_getElem?.1 hp
    have := List.getElem?_eq_some.1 h2
    exact this.1
  · simp [hps] at hpi

theorem foldl_step_bounded (A : BuchiAutomaton) (state : Int) (symbol : Str) :
    ∀ (l : List BuchiTransition) (acc : Int),
    (acc = -1 ∨ (0 ≤ acc ∧ acc < (A.states.length : Int))) →
    ((l.foldl (fun acc t =>
        match stateToIndex A.states t.from_, stateToIndex A.states t.to_ with
        | some f, some tt => if (f : Int) = state ∧ t.symbol = symbol then (tt : Int) else acc
        | _, _ => acc) acc) = -1 ∨
      (0 ≤ (l.foldl (fun acc t =>
        match stateToIndex A.states t.from_, stateToIndex A.states t.to_ with
        | some f, some tt => if (f : Int) = state ∧ t.symbol = symbol then (tt : Int) else acc
        | _, _ => acc) acc) ∧
      (l.foldl (fun acc t =>
        match stateToIndex A.states t.from_, stateToIndex A.states t.to_ with
        | some f, some tt => if (f : Int) = state ∧ t.symbol = symbol then (tt : Int) else acc
        | _, _ => acc) acc) < (A.states.length : Int))) := by
  intro l
  induction l with
  | nil => intro acc h; exact h
  | cons t l ih =>
    intro acc h
    rw [List.foldl_cons]
    apply ih
    rcases h1 : stateToIndex A.states t.from_ with _ | f
    · simpa using h
    · rcases h2 : stateToIndex A.states t.to_ with _ | tt
      · simpa using h
      · simp only
        by_cases hc : (f : Int) = state ∧ t.symbol = symbol
        · rw [if_pos hc]
          right
          have := stateToIndex_lt h2
          constructor
          · positivity
          · exact_mod_cast this
        · rw [if_neg hc]
          exact h

theorem buildStep_bounded (A : BuchiAutomaton) :
    StepBounded (buildStep A) A.states.length := by
  intro s c
  exact foldl_step_bounded A s c A.transitions (-1) (Or.inl rfl)

theorem runWord_bounded {step : Int → Str → Int} {n : Nat} (hstep : StepBounded step n) :
    ∀ (w : Str) (start : Int), 0 ≤ start → start < (n : Int) →
    ∀ s, runWord w start step = some s → 0 ≤ s ∧ s < (n : Int) := by
  intro w
  induction w with
  | nil =>
    intro start h0 hn s hs
    simp only [runWord, Option.some.injEq] at hs
    subst hs
    exact ⟨h0, hn⟩
  | cons c rest ih =>
    intro start h0 hn s hs
    simp only [runWord] at hs
    rcases hstep start [c] with h | ⟨hlow, hhigh⟩
    · rw [if_pos h] at hs
      cases hs
    · rw [if_neg (by omega)] at hs
      exact ih _ hlow hhigh s hs

theorem fpc_driver_isSome (A : BuchiAutomaton) {entry : Int} (h0 : 0 ≤ entry)
    (hn : entry < (A.states.length : Int)) (lw : Str) :
    (findPeriodicCycle entry lw (buildStep A) (fpcFuel A lw)).isSome := by
  unfold fpcFuel
  exact findPeriodicCycle_isSome (buildStep_bounded A) h0 hn lw

theorem innerLoopV1_isSome (A : BuchiAutomaton) (pword : Str) {entry : Int}
    (h0 : 0 ≤ entry) (hn : entry < (A.states.length : Int)) :
    ∀ (loops : List StateTransform) (fna : Option DbaCycleEvaluation) (saw : Bool),
    (innerLoopV1 A (buildStep A) pword entry loops fna saw).isSome := by
  intro loops
  induction loops with
  | nil => intro fna saw; simp [innerLoopV1]
  | cons l rest ih =>
    intro fna saw
    have hsome := fpc_driver_isSome A h0 hn l.word
    rw [innerLoopV1.eq_def]
    simp only
    split
    · rename_i hnone
      rw [hnone] at hsome
      simp at hsome
    · exact ih _ _
    · split
      · simp
      · exact ih _ _

theorem outerLoopV1_isSome (A : BuchiAutomaton)
    (loopTransforms : List StateTransform) {initialIndex : Nat}
    (hlt : initialIndex < A.states.length) :
    ∀ (pts : List StateTransform) (sa : Option DbaCycleEvaluation),
    (outerLoopV1 A (buildStep A) loopTransforms initialIndex pts sa).isSome := by
  intro pts
  induction pts with
  | nil => intro sa; simp [outerLoopV1]
  | cons p rest ih =>
    intro sa
    rw [outerLoopV1.eq_def]
    simp only
    split
    · simp
    · rename_i entry hr
      obtain ⟨h0, hn⟩ := runWord_bounded (buildStep_bounded A) p.word _ (by positivity)
        (by exact_mod_cast hlt) entry hr
      have hsome := innerLoopV1_isSome A p.word h0 hn loopTransforms none false
      split
      · rename_i hnone
        rw [hnone] at hsome
        simp at hsome
      · rename_i afp fna saw hout
        split
        · simp
        · exact ih _

theorem innerLoopV2_isSome (A : BuchiAutomaton) (pword : Str) {entry : Int}
    (h0 : 0 ≤ entry) (hn : entry < (A.states.length : Int)) :
    ∀ (loops : List StateTransform) (fb : Option DbaCycleEvaluation),
    (innerLoopV2 A (buildStep A) pword entry loops fb).isSome := by
  intro loops
  induction loops with
  | nil => intro fb; simp [innerLoopV2]
  | cons l rest ih =>
    intro fb
    have hsome := fpc_driver_isSome A h0 hn l.word
    rw [innerLoopV2.eq_def]
    simp only
    split
    · rename_i hnone
      rw [hnone] at hsome
      simp at hsome
    · exact ih _
    · split
      · simp
      · exact ih _

theorem outerLoopV2_isSome (A : BuchiAutomaton)
    (loopTransforms : List StateTransform) {initialIndex : Nat}
    (hlt : initialIndex < A.states.length) :
    ∀ (pts : List StateTransform) (fb : Option DbaCycleEvaluation),
    (outerLoopV2 A (buildStep A) loopTransforms initialIndex pts fb).isSome := by
  intro pts
  induction pts with
  | nil => intro fb; simp [outerLoopV2]
  | cons p rest ih =>
    intro fb
    rw [outerLoopV2.eq_def]
    simp only
    split
    · exact ih _
    · rename_i entry hr
      obtain ⟨h0, hn⟩ := runWord_bounded (buildStep_bounded A) p.word _ (by positivity)
        (by exact_mod_cast hlt) entry hr
      have hsome := innerLoopV2_isSome A p.word h0 hn loopTransforms fb
      split
      · rename_i hnone
        rw [hnone] at hsome
        simp at hsome
      · simp
      · exact ih _

theorem dbaEvaluateOmegaWord_isSome (A : BuchiAutomaton) (word : ParsedOmegaWord) :
    (dbaEvaluateOmegaWord A word).isSome := by
  rw [dbaEvaluateOmegaWord]
  obtain ⟨pts, hpts⟩ := Option.isSome_iff_exists.1
    (evaluateRegex_isSome (buildLetterTransforms A) A.states.length word.pfx)
  rw [hpts]
  obtain ⟨lts, hlts⟩ := Option.isSome_iff_exists.1
    (evalNode_isSome (buildLetterTransforms A) A.states.length word.omega)
  rw [hlts]
  rcases hsi : stateToIndex A.states A.initial with _ | i
  · simp
  · simp only
    have hsome := outerLoopV1_isSome A lts (stateToIndex_lt hsi) pts none
    split
    · rename_i hnone
      rw [hnone] at hsome
      simp at hsome
    · simp
    · simp

theorem dbaEvaluateOmegaWordV2_isSome (A : BuchiAutomaton) (word : ParsedOmegaWord) :
    (dbaEvaluateOmegaWordV2 A word).isSome := by
  rw [dbaEvaluateOmegaWordV2]
  obtain ⟨pts, hpts⟩ := Option.isSome_iff_exists.1
    (evaluateRegex_isSome (buildLetterTransforms A) A.states.length word.pfx)
  rw [hpts]
  obtain ⟨lts, hlts⟩ := Option.isSome_iff_exists.1
    (evalNode_isSome (buildLetterTransforms A) A.states.length word.omega)
  rw [hlts]
  rcases hsi : stateToIndex A.states A.initial with _ | i
  · simp
  · simp only
    have hsome := outerLoopV2_isSome A lts (stateToIndex_lt hsi) pts none
    split
    · rename_i hnone
      rw [hnone] at hsome
      simp at hsome
    · simp
    · simp

/-! ### The periodic-cycle search: the returned cycle along the trajectory -/

theorem drop_range (i n : Nat) :
    List.drop i (List.range n) = (List.range (n - i)).map fun t => i + t := by
  induction n generalizing i with
  | zero => simp
  | succ n ih =>
    cases i with
    | zero => simp
    | succ i =>
      rw [List.range_succ]
      rcases Nat.lt_or_ge i n with h | h
      · rw [List.drop_append_of_le_length (by simp; omega), ih]
        have h2 : n + 1 - (i + 1) = (n - (i + 1)) + 1 := by omega
        rw [h2, List.range_succ]
        simp
        omega
      · have h1 : n + 1 - (i + 1) = 0 := by omega
        rw [h1]
        simp
        omega

theorem fpcAux_cycle_spec (step : Int → Str → Int) (loopWord : Str) (entry : Int) :
    ∀ (fuel k : Nat) (seen : List ((Int × Nat) × Nat)) (path : List Int)
      (state : Int) (pos : Nat) (c : CycleResult),
    seen = (List.range k).map (fun t => (trajPair step loopWord entry t, t)) →
    path = (List.range (k + 1)).map (trajState step loopWord entry) →
    state = trajState step loopWord entry k →
    pos = k % loopWord.length →
    (∀ a b, a < b → b < k →
      trajPair step loopWord entry a ≠ trajPair step loopWord entry b) →
    findPeriodicCycleAux step loopWord fuel seen path state pos = some (some c) →
    ∃ i j, i < j ∧
      trajPair step loopWord entry i = trajPair step loopWord entry j ∧
      (∀ a b, a < b → b < j →
        trajPair step loopWord entry a ≠ trajPair step loopWord entry b) ∧
      c.cycleStates =
        (List.range (j - i + 1)).map fun t => trajState step loopWord entry (i + t) := by
  intro fuel
  induction fuel with
  | zero =>
    intro k seen path state pos c hseen hpath hstate hpos hdist h
    simp [findPeriodicCycleAux] at h
  | succ fuel ih =>
    intro k seen path state pos c hseen hpath hstate hpos hdist h
    subst hseen hpath hstate hpos
    rw [findPeriodicCycleAux] at h
    split at h
    · rename_i start hl
      have hmem := lookupPair_mem hl
      simp only [List.mem_map, List.mem_range] at hmem
      obtain ⟨t, ht, hteq⟩ := hmem
      have hpair : trajPair step loopWord entry t =
          (trajState step loopWord entry k, k % loopWord.length) := congrArg Prod.fst hteq
      have htstart : t = start := congrArg Prod.snd hteq
      subst htstart
      simp only [Option.some.injEq] at h
      refine ⟨t, k, ht, ?_, hdist, ?_⟩
      · rw [hpair]
        rfl
      · rw [← h]
        simp only
        rw [← List.map_drop, drop_range]
        have hk1 : k + 1 - t = (k - t) + 1 := by omega
        rw [hk1]
        simp [List.map_map, Function.comp_def]
    · rename_i hl
      rw [lookupPair_eq_none] at hl
      simp only at h
      split at h
      · simp at h
      · rename_i hnext
        have hdist' : ∀ a b, a < b → b < k + 1 →
            trajPair step loopWord entry a ≠ trajPair step loopWord entry b := by
          intro a b hab hb
          rcases Nat.lt_or_ge b k with hbk | hbk
          · exact hdist a b hab hbk
          · have hbk' : b = k := by omega
            subst hbk'
            intro hcon
            apply hl
            simp only [List.map_map, List.mem_map, List.mem_range, Function.comp_def]
            exact ⟨a, hab, hcon⟩
        have e1 : (List.range k).map (fun t => (trajPair step loopWord entry t, t)) ++
            [((trajState step loopWord entry k, k % loopWord.length),
              ((List.range (k + 1)).map (trajState step loopWord entry)).length - 1)] =
            (List.range (k + 1)).map (fun t => (trajPair step loopWord entry t, t)) := by
          rw [List.range_succ, List.map_append]
          simp [trajPair]
        have e2 : (List.range (k + 1)).map (trajState step loopWord entry) ++
            [step (trajState step loopWord entry k)
              [loopWord.getD (k % loopWord.length) 'x']] =
            (List.range (k + 1 + 1)).map (trajState step loopWord entry) := by
          rw [List.range_succ (n := k + 1), List.map_append]
          rfl
        have e3 : (k % loopWord.length + 1) % loopWord.length = (k + 1) % loopWord.length :=
          Nat.mod_add_mod k loopWord.length 1
        rw [e1, e2, e3] at h
        exact ih (k + 1) _ _ _ _ c rfl rfl rfl rfl hdist' h

/-- For a non-empty loop word, a cycle returned by findPeriodicCycle is
the trajectory segment from the first occurrence of the first repeated
(state, position) pair up to and including its second occurrence. -/
theorem findPeriodicCycle_cycle_spec {step : Int → Str → Int} {loopWord : Str}
    {entry : Int} {fuel : Nat} {c : CycleResult} (hlw : loopWord.length ≠ 0)
    (h : findPeriodicCycle entry loopWord step fuel = some (some c)) :
    ∃ i j, i < j ∧
      trajPair step loopWord entry i = trajPair step loopWord entry j ∧
      (∀ a b, a < b → b < j →
        trajPair step loopWord entry a ≠ trajPair step loopWord entry b) ∧
      c.cycleStates =
        (List.range (j - i + 1)).map fun t => trajState step loopWord entry (i + t) := by
  rw [findPeriodicCycle, if_neg hlw] at h
  refine fpcAux_cycle_spec step loopWord entry fuel 0 _ _ _ _ c (by simp) ?_ rfl
    (by simp) (by omega) h
  simp [List.range_succ]
  rfl

/-! ### Driver characterization: which inputs the first driver accepts -/

theorem innerLoopV1_spec (A : BuchiAutomaton) (pword : Str) (entry : Int) :
    ∀ (loops : List StateTransform) (fna : Option DbaCycleEvaluation) (saw : Bool)
      (afp fna' : Option DbaCycleEvaluation) (saw' : Bool),
    innerLoopV1 A (buildStep A) pword entry loops fna saw = some (afp, fna', saw') →
    NonAcceptingOpt fna →
    NonAcceptingOpt fna' ∧
    (∀ acc, afp = some acc → acc.accepted = true) ∧
    (afp ≠ none ↔ ∃ l ∈ loops, loopAccepts A entry l) := by
  intro loops
  induction loops with
  | nil =>
    intro fna saw afp fna' saw' h hfna
    simp only [innerLoopV1, Option.some.injEq, Prod.mk.injEq] at h
    obtain ⟨h1, h2, h3⟩ := h
    subst h1; subst h2
    refine ⟨hfna, by simp, by simp⟩
  | cons l rest ih =>
    intro fna saw afp fna' saw' h hfna
    rw [innerLoopV1] at h
    split at h
    · cases h
    · rename_i hfpc
      obtain ⟨hfna', hacc, hiff⟩ := ih _ _ _ _ _ h (by
        intro f hf
        simp only [Option.some.injEq] at hf
        subst hf
        cases fna with
        | some g => exact hfna g rfl
        | none => rfl)
      refine ⟨hfna', hacc, ?_⟩
      rw [hiff]
      constructor
      · rintro ⟨l', hl', ha⟩
        exact ⟨l', List.mem_cons_of_mem _ hl', ha⟩
      · rintro ⟨l', hl', ha⟩
        rcases List.mem_cons.1 hl' with rfl | hl''
        · exfalso
          obtain ⟨cyc, hcyc, -⟩ := ha
          rw [hcyc] at hfpc
          cases hfpc
        · exact ⟨l', hl'', ha⟩
    · rename_i cyc hfpc
      simp only at h
      split at h
      · rename_i haccep
        simp only [Option.some.injEq, Prod.mk.injEq] at h
        obtain ⟨h1, h2, h3⟩ := h
        subst h1; subst h2
        refine ⟨hfna, ?_, ?_⟩
        · intro acc hacc
          simp only [Option.some.injEq] at hacc
          subst hacc
          simpa [cycleRecord] using haccep
        · simp only [ne_eq, Option.some_ne_none, not_false_iff, true_iff]
          exact ⟨l, List.mem_cons_self _ _, cyc, hfpc, by simpa [cycleRecord] using haccep⟩
      · rename_i haccep
        obtain ⟨hfna', hacc, hiff⟩ := ih _ _ _ _ _ h (by
          intro f hf
          simp only [Option.some.injEq] at hf
          subst hf
          cases fna with
          | some g => exact hfna g rfl
          | none =>
            simp only [orDefault]
            simpa [cycleRecord] using haccep)
        refine ⟨hfna', hacc, ?_⟩
        rw [hiff]
        constructor
        · rintro ⟨l', hl', ha⟩
          exact ⟨l', List.mem_cons_of_mem _ hl', ha⟩
        · rintro ⟨l', hl', ha⟩
          rcases List.mem_cons.1 hl' with rfl | hl''
          · exfalso
            obtain ⟨cyc', hcyc, hca⟩ := ha
            rw [hcyc] at hfpc
            cases hfpc
            simp only [cycleRecord] at haccep
            exact haccep (by simpa using hca)
          · exact ⟨l', hl'', ha⟩

theorem outerLoopV1_accepted_iff (A : BuchiAutomaton) (loops : List StateTransform)
    (initialIndex : Nat) :
    ∀ (pts : List StateTransform) (sa res : Option DbaCycleEvaluation),
    (∀ st, sa = some st → st.accepted = true) →
    outerLoopV1 A (buildStep A) loops initialIndex pts sa = some res →
    ((∃ r, res = some r ∧ r.accepted = true) ↔
      ((∀ p ∈ pts, prefixGood A loops initialIndex p) ∧ (sa ≠ none ∨ pts ≠ []))) := by
  intro pts
  induction pts with
  | nil =>
    intro sa res hsa h
    simp only [outerLoopV1, Option.some.injEq] at h
    subst h
    constructor
    · rintro ⟨r, rfl, hr⟩
      exact ⟨by simp, Or.inl (by simp)⟩
    · rintro ⟨-, hne | hne⟩
      · cases sa with
        | none => simp at hne
        | some st => exact ⟨st, rfl, hsa st rfl⟩
      · simp at hne
  | cons p rest ih =>
    intro sa res hsa h
    rw [outerLoopV1] at h
    split at h
    · rename_i hrw
      simp only [Option.some.injEq] at h
      subst h
      constructor
      · rintro ⟨r, hr, hacc⟩
        simp only [Option.some.injEq] at hr
        subst hr
        simp [prefixStuckRecord] at hacc
      · rintro ⟨hall, -⟩
        exfalso
        obtain ⟨entry, hrun, -⟩ := hall p (List.mem_cons_self _ _)
        rw [hrw] at hrun
        cases hrun
    · rename_i entry hrw
      split at h
      · cases h
      · rename_i afp fna' saw' hinner
        obtain ⟨hfna', haccP, hiff⟩ :=
          innerLoopV1_spec A p.word entry loops none false _ _ _ hinner
            (by intro f hf; cases hf)
        split at h
        · simp only [Option.some.injEq] at h
          subst h
          constructor
          · rintro ⟨r, hr, hacc⟩
            simp only [Option.some.injEq] at hr
            subst hr
            exfalso
            cases hfn : fna' with
            | none => rw [hfn] at hacc; simp [orDefault, noLoopRecord] at hacc
            | some f =>
              rw [hfn] at hacc
              have := hfna' f hfn
              simp only [orDefault] at hacc
              rw [this] at hacc
              cases hacc
          · rintro ⟨hall, -⟩
            exfalso
            obtain ⟨entry', hrun, hex⟩ := hall p (List.mem_cons_self _ _)
            rw [hrw] at hrun
            injection hrun with hrun
            subst hrun
            have : (none : Option DbaCycleEvaluation) ≠ none := hiff.2 hex
            exact this rfl
        · rename_i acc
          have hsa' : ∀ st, some (orDefault sa acc) = some st → st.accepted = true := by
            intro st hst
            injection hst with hst
            subst hst
            cases sa with
            | none => simpa [orDefault] using haccP acc rfl
            | some s => simpa [orDefault] using hsa s rfl
          have hiff' := ih (some (orDefault sa acc)) res hsa' h
          rw [hiff']
          have hgoodp : prefixGood A loops initialIndex p :=
            ⟨entry, hrw, hiff.1 (by simp)⟩
          simp only [List.forall_mem_cons]
          constructor
          · rintro ⟨hall, -⟩
            exact ⟨⟨hgoodp, hall⟩, Or.inr (by simp)⟩
          · rintro ⟨⟨-, hall⟩, -⟩
            exact ⟨hall, Or.inl (by simp)⟩

theorem outerLoopV1_sa_accepts (A : BuchiAutomaton) (loops : List StateTransform)
    (initialIndex : Nat) :
    ∀ (pts : List StateTransform) (s : DbaCycleEvaluation) (res : Option DbaCycleEvaluation),
    outerLoopV1 A (buildStep A) loops initialIndex pts (some s) = some res →
    (∃ r, res = some r ∧ r.accepted = true) → res = some s := by
  intro pts
  induction pts with
  | nil =>
    intro s res h hacc
    simp only [outerLoopV1, Option.some.injEq] at h
    exact h.symm
  | cons p rest ih =>
    intro s res h hacc
    rw [outerLoopV1] at h
    split at h
    · simp only [Option.some.injEq] at h
      subst h
      obtain ⟨r, hr, hracc⟩ := hacc
      simp only [Option.some.injEq] at hr
      subst hr
      simp [prefixStuckRecord] at hracc
    · rename_i entry hrw
      split at h
      · cases h
      · rename_i afp fna' saw' hinner
        obtain ⟨hfna', haccP, -⟩ :=
          innerLoopV1_spec A p.word entry loops none false _ _ _ hinner
            (by intro f hf; cases hf)
        split at h
        · simp only [Option.some.injEq] at h
          subst h
          obtain ⟨r, hr, hracc⟩ := hacc
          simp only [Option.some.injEq] at hr
          subst hr
          exfalso
          cases hfn : fna' with
          | none => rw [hfn] at hracc; simp [orDefault, noLoopRecord] at hracc
          | some f =>
            rw [hfn] at hracc
            have := hfna' f hfn
            simp only [orDefault] at hracc
            rw [this] at hracc
            cases hracc
        · rename_i acc
          have : orDefault (some s) acc = s := rfl
          rw [this] at h
          exact ih s res h hacc

theorem outerLoopV1_accepts_head (A : BuchiAutomaton) (loops : List StateTransform)
    (initialIndex : Nat) (pts : List StateTransform) (res : Option DbaCycleEvaluation)
    (r : DbaCycleEvaluation)
    (h : outerLoopV1 A (buildStep A) loops initialIndex pts none = some res)
    (hres : res = some r) (hacc : r.accepted = true) :
    ∃ p rest entry fna' saw', pts = p :: rest ∧
      runWord p.word (initialIndex : Int) (buildStep A) = some entry ∧
      innerLoopV1 A (buildStep A) p.word entry loops none false =
        some (some r, fna', saw') := by
  subst hres
  cases pts with
  | nil =>
    simp only [outerLoopV1, Option.some.injEq] at h
    cases h
  | cons p rest =>
    rw [outerLoopV1] at h
    split at h
    · simp only [Option.some.injEq] at h
      subst h
      simp [prefixStuckRecord] at hacc
    · rename_i entry hrw
      split at h
      · cases h
      · rename_i afp fna' saw' hinner
        obtain ⟨hfna', haccP, -⟩ :=
          innerLoopV1_spec A p.word entry loops none false _ _ _ hinner
            (by intro f hf; cases hf)
        split at h
        · simp only [Option.some.injEq] at h
          subst h
          exfalso
          cases hfn : fna' with
          | none => rw [hfn] at hacc; simp [orDefault, noLoopRecord] at hacc
          | some f =>
            rw [hfn] at hacc
            have := hfna' f hfn
            simp only [orDefault] at hacc
            rw [this] at hacc
            cases hacc
        · rename_i acc
          have he : orDefault none acc = acc := rfl
          rw [he] at h
          have := outerLoopV1_sa_accepts A loops initialIndex rest acc (some r) h
            ⟨r, rfl, hacc⟩
          injection this with this
          subst this
          exact ⟨p, rest, entry, fna', saw', rfl, hrw, hinner⟩

theorem innerLoopV1_to_V2 (A : BuchiAutomaton) (step : Int → Str → Int) (pword : Str)
    (entry : Int) :
    ∀ (loops : List StateTransform) (fna : Option DbaCycleEvaluation) (saw : Bool)
      (acc : DbaCycleEvaluation) (fna' : Option DbaCycleEvaluation) (saw' : Bool),
    innerLoopV1 A step pword entry loops fna saw = some (some acc, fna', saw') →
    ∀ fb, ∃ fb', innerLoopV2 A step pword entry loops fb = some (some acc, fb') := by
  intro loops
  induction loops with
  | nil =>
    intro fna saw acc fna' saw' h fb
    simp only [innerLoopV1, Option.some.injEq, Prod.mk.injEq] at h
    obtain ⟨h1, -, -⟩ := h
    cases h1
  | cons l rest ih =>
    intro fna saw acc fna' saw' h fb
    rw [innerLoopV1] at h
    rw [innerLoopV2]
    split at h
    · cases h
    · exact ih _ _ _ _ _ h fb
    · rename_i cyc hfpc
      simp only at h ⊢
      split at h
      · rename_i haccep
        rw [if_pos haccep]
        simp only [Option.some.injEq, Prod.mk.injEq] at h
        obtain ⟨h1, -, -⟩ := h
        subst h1
        exact ⟨fb, rfl⟩
      · rename_i haccep
        rw [if_neg haccep]
        exact ih _ _ _ _ _ h _

theorem dbaV1_unfold (A : BuchiAutomaton) (w : ParsedOmegaWord)
    {pts lts : List StateTransform} {i0 : Nat}
    (hpts : evaluateRegex (buildLetterTransforms A) A.states.length w.pfx = some pts)
    (hlts : evalNode (buildLetterTransforms A) A.states.length w.omega = some lts)
    (hi : stateToIndex A.states A.initial = some i0) :
    dbaEvaluateOmegaWord A w =
      match outerLoopV1 A (buildStep A) lts i0 pts none with
      | none => none
      | some (some r) => some r
      | some none => some (noValidRunRecord A i0) := by
  simp only [dbaEvaluateOmegaWord, hpts, hlts, hi]

theorem dbaV2_unfold (A : BuchiAutomaton) (w : ParsedOmegaWord)
    {pts lts : List StateTransform} {i0 : Nat}
    (hpts : evaluateRegex (buildLetterTransforms A) A.states.length w.pfx = some pts)
    (hlts : evalNode (buildLetterTransforms A) A.states.length w.omega = some lts)
    (hi : stateToIndex A.states A.initial = some i0) :
    dbaEvaluateOmegaWordV2 A w =
      match outerLoopV2 A (buildStep A) lts i0 pts none with
      | none => none
      | some (some r) => some r
      | some none => some (noValidRunRecord A i0) := by
  simp only [dbaEvaluateOmegaWordV2, hpts, hlts, hi]

theorem dbaV1_accepted_characterization (A : BuchiAutomaton) (w : ParsedOmegaWord)
    {pts lts : List StateTransform} {i0 : Nat} {r : DbaCycleEvaluation}
    (hpts : evaluateRegex (buildLetterTransforms A) A.states.length w.pfx = some pts)
    (hlts : evalNode (buildLetterTransforms A) A.states.length w.omega = some lts)
    (hi : stateToIndex A.states A.initial = some i0)
    (hr : dbaEvaluateOmegaWord A w = some r) :
    (r.accepted = true ↔ (pts ≠ [] ∧ ∀ p ∈ pts, prefixGood A lts i0 p)) := by
  rw [dbaV1_unfold A w hpts hlts hi] at hr
  split at hr
  · cases hr
  · rename_i r' hout
    injection hr with hr
    subst hr
    have hiff := outerLoopV1_accepted_iff A lts i0 pts none (some r') (by intro st h; cases h) hout
    constructor
    · intro hacc
      obtain ⟨hall, hor⟩ := hiff.1 ⟨r', rfl, hacc⟩
      rcases hor with hc | hc
      · exact absurd rfl hc
      · exact ⟨hc, hall⟩
    · rintro ⟨hne, hall⟩
      obtain ⟨rr, hrr, hrracc⟩ := hiff.2 ⟨hall, Or.inr hne⟩
      injection hrr with hrr
      subst hrr
      exact hrracc
  · rename_i hout
    injection hr with hr
    subst hr
    have hiff := outerLoopV1_accepted_iff A lts i0 pts none none (by intro st h; cases h) hout
    constructor
    · intro hacc
      simp [noValidRunRecord] at hacc
    · rintro ⟨hne, hall⟩
      obtain ⟨rr, hrr, -⟩ := hiff.2 ⟨hall, Or.inr hne⟩
      cases hrr

theorem dbaV1_stuck_prefix_rejects (A : BuchiAutomaton) (w : ParsedOmegaWord)
    {pts lts : List StateTransform} {i0 : Nat} {r : DbaCycleEvaluation}
    (hpts : evaluateRegex (buildLetterTransforms A) A.states.length w.pfx = some pts)
    (hlts : evalNode (buildLetterTransforms A) A.states.length w.omega = some lts)
    (hi : stateToIndex A.states A.initial = some i0)
    (hr : dbaEvaluateOmegaWord A w = some r)
    {p : StateTransform} (hp : p ∈ pts)
    (hstuck : runWord p.word (i0 : Int) (buildStep A) = none) :
    r.accepted = false := by
  have hiff := dbaV1_accepted_characterization A w hpts hlts hi hr
  rcases hb : r.accepted with _ | _
  · rfl
  · exfalso
    obtain ⟨-, hall⟩ := hiff.1 hb
    obtain ⟨entry, hrun, -⟩ := hall p hp
    rw [hstuck] at hrun
    cases hrun

theorem dbaV1_first_prefix_stuck (A : BuchiAutomaton) (w : ParsedOmegaWord)
    {p : StateTransform} {rest lts : List StateTransform} {i0 : Nat}
    (hpts : evaluateRegex (buildLetterTransforms A) A.states.length w.pfx = some (p :: rest))
    (hlts : evalNode (buildLetterTransforms A) A.states.length w.omega = some lts)
    (hi : stateToIndex A.states A.initial = some i0)
    (hstuck : runWord p.word (i0 : Int) (buildStep A) = none) :
    dbaEvaluateOmegaWord A w = some (prefixStuckRecord A p) := by
  rw [dbaV1_unfold A w hpts hlts hi]
  rw [outerLoopV1]
  rw [hstuck]

theorem v1_accepts_implies_v2 (A : BuchiAutomaton) (w : ParsedOmegaWord)
    (r : DbaCycleEvaluation) (h : dbaEvaluateOmegaWord A w = some r)
    (hacc : r.accepted = true) : dbaEvaluateOmegaWordV2 A w = some r := by
  obtain ⟨pts, hpts⟩ := Option.isSome_iff_exists.1
    (evaluateRegex_isSome (buildLetterTransforms A) A.states.length w.pfx)
  obtain ⟨lts, hlts⟩ := Option.isSome_iff_exists.1
    (evalNode_isSome (buildLetterTransforms A) A.states.length w.omega)
  rcases hi : stateToIndex A.states A.initial with _ | i0
  · simp only [dbaEvaluateOmegaWord, hpts, hlts, hi] at h
    injection h with h
    subst h
    simp [initialMissingRecord] at hacc
  · rw [dbaV1_unfold A w hpts hlts hi] at h
    split at h
    · cases h
    · rename_i r' hout
      injection h with h
      subst h
      obtain ⟨p, rest, entry, fna', saw', hpteq, hrun, hinner⟩ :=
        outerLoopV1_accepts_head A lts i0 pts (some r') r' hout rfl hacc
      obtain ⟨fb', hv2inner⟩ :=
        innerLoopV1_to_V2 A (buildStep A) p.word entry lts none false r' fna' saw'
          hinner none
      rw [dbaV2_unfold A w hpts hlts hi]
      subst hpteq
      simp only [outerLoopV2, hrun, hv2inner]
    · rename_i hout
      injection h with h
      subst h
      simp [noValidRunRecord] at hacc

/-! ### Omega placement: success shape and diagnostics -/

theorem extract_some_trailing {ast : RegexNode}
    {c : Option RegexNode × RegexNode}
    (h : extractOmegaComponents ast = some c) : OmegaTrailing ast := by
  unfold extractOmegaComponents at h
  split at h
  · rename_i n
    exact Or.inl ⟨n, rfl⟩
  · rename_i ns
    split at h
    · rename_i n hlast
      exact Or.inr ⟨ns, n, rfl, hlast⟩
    · cases h
  · cases h

theorem parseOmegaWord_success_shape {raw : String} {w : ParsedOmegaWord}
    (h : parseOmegaWord raw = .success w) :
    countOmegaNodes (some w.ast) = 1 ∧ OmegaTrailing w.ast := by
  simp only [parseOmegaWord] at h
  split at h
  · cases h
  · split at h
    · cases h
    · cases h
    · rename_i ast hast
      split at h
      · cases h
      · split at h
        · cases h
        · rename_i hc0 hc1
          split at h
          · cases h
          all_goals
            injection h with h
            subst h
            constructor
            · simp only [countOmegaNodes]
              omega
            · apply extract_some_trailing
              assumption

theorem parseOmegaWord_diagnostics (raw : String) (ast : RegexNode)
    (hne : ¬ (trimChars raw.toList).isEmpty)
    (hast : parseTop (parseFuel (trimChars raw.toList)) (trimChars raw.toList) = .ok ast) :
    (countOmega ast = 0 →
      parseOmegaWord raw =
        .failure "Add a ^w suffix to mark the infinite loop (e.g., ab(ba)^w).") ∧
    (countOmega ast > 1 →
      parseOmegaWord raw = .failure "Only one ^w (or ^ω) suffix is allowed.") ∧
    (countOmega ast = 1 → extractOmegaComponents ast = none →
      parseOmegaWord raw =
        .failure "Place the ^w suffix at the end so the word looks like αβ^w.") := by
  refine ⟨?_, ?_, ?_⟩
  · intro hc
    simp only [parseOmegaWord, hne, if_false, hast, hc, if_true]
    simp
  · intro hc
    have hc0 : ¬ countOmega ast = 0 := by omega
    simp only [parseOmegaWord, hne, if_false, hast, hc0, if_true, hc]
    simp
  · intro hc hex
    have hc0 : ¬ countOmega ast = 0 := by omega
    have hc1 : ¬ countOmega ast > 1 := by omega
    simp only [parseOmegaWord, hne, if_false, hast, hc0, hc1, if_true, hex]
    simp

/-! ### Parser fuel sufficiency -/

theorem peekC_some_lt {input : List Char} {i : Nat} {c : Char}
    (h : peekC input i = some c) : i < input.length := by
  rw [peekC] at h
  obtain ⟨hlt, -⟩ := List.get?_eq_some.1 h
  exact hlt

theorem le_skipWs (input : List Char) (i : Nat) : i ≤ skipWs input i := by
  simp [skipWs]

theorem skipWs_le_length {input : List Char} {i : Nat} (h : i ≤ input.length) :
    skipWs input i ≤ input.length := by
  rw [skipWs]
  have h1 : ((input.drop i).takeWhile isSpace).length ≤ (input.drop i).length :=
    List.IsPrefix.length_le (List.takeWhile_prefix isSpace)
  simp only [List.length_drop] at h1
  omega

theorem parser_fuel_spec (input : List Char) : ∀ f : Nat,
    (∀ i, 6 * (input.length - i) + 1 ≤ f →
      parsePrimaryF f input i ≠ .error .fuelOut ∧
      ∀ node i', parsePrimaryF f input i = .ok (node, i') →
        i + 1 ≤ i' ∧ i < input.length) ∧
    (∀ node i, 6 * (input.length - i) + 2 ≤ f →
      repeatLoopF f input node i ≠ .error .fuelOut ∧
      ∀ node' i', repeatLoopF f input node i = .ok (node', i') → i ≤ i') ∧
    (∀ i, 6 * (input.length - i) + 2 ≤ f →
      parseRepeatF f input i ≠ .error .fuelOut ∧
      ∀ node i', parseRepeatF f input i = .ok (node, i') →
        i + 1 ≤ i' ∧ i < input.length) ∧
    (∀ nodes i, 6 * (input.length - i) + 3 ≤ f →
      concatLoopF f input nodes i ≠ .error .fuelOut ∧
      ∀ ns i', concatLoopF f input nodes i = .ok (ns, i') →
        (ns = nodes ∧ i' = i) ∨ (i + 1 ≤ i' ∧ i < input.length)) ∧
    (∀ i, 6 * (input.length - i) + 4 ≤ f →
      parseConcatF f input i ≠ .error .fuelOut ∧
      ∀ node i', parseConcatF f input i = .ok (node, i') →
        i + 1 ≤ i' ∧ i < input.length) ∧
    (∀ branches i, 6 * (input.length - i) + 5 ≤ f →
      unionLoopF f input branches i ≠ .error .fuelOut ∧
      ∀ node i', unionLoopF f input branches i = .ok (node, i') → i ≤ i') ∧
    (∀ i, 6 * (input.length - i) + 5 ≤ f →
      parseUnionF f input i ≠ .error .fuelOut ∧
      ∀ node i', parseUnionF f input i = .ok (node, i') →
        i + 1 ≤ i' ∧ i < input.length) := by
  intro f
  induction f with
  | zero =>
    refine ⟨?_, ?_, ?_, ?_, ?_, ?_, ?_⟩
    · intro i h; exact absurd h (by omega)
    · intro node i h; exact absurd h (by omega)
    · intro i h; exact absurd h (by omega)
    · intro nodes i h; exact absurd h (by omega)
    · intro i h; exact absurd h (by omega)
    · intro branches i h; exact absurd h (by omega)
    · intro i h; exact absurd h (by omega)
  | succ f ih =>
    obtain ⟨IHprim, IHrepL, IHrep, IHconL, IHcon, IHuniL, IHuni⟩ := ih
    have Hprim : ∀ i, 6 * (input.length - i) + 1 ≤ f + 1 →
        parsePrimaryF (f + 1) input i ≠ .error .fuelOut ∧
        ∀ node i', parsePrimaryF (f + 1) input i = .ok (node, i') →
          i + 1 ≤ i' ∧ i < input.length := by
      intro i h
      have hskip := le_skipWs input i
      rcases hp : peekC input (skipWs input i) with _ | c
      · simp only [parsePrimaryF, hp]
        exact ⟨by simp, fun node i' h' => by cases h'⟩
      · have hlt := peekC_some_lt hp
        simp only [parsePrimaryF, hp]
        by_cases hc : c = '('
        · rw [if_pos hc]
          have hbound : 6 * (input.length - (skipWs input i + 1)) + 5 ≤ f := by omega
          obtain ⟨hu1, hu2⟩ := IHuni (skipWs input i + 1) hbound
          rcases hu : parseUnionF f input (skipWs input i + 1) with e | ⟨node, i2⟩
          · rw [hu] at hu1
            simp only [hu]
            refine ⟨?_, fun node i' h' => by cases h'⟩
            intro hcontra
            injection hcontra with hcontra
            subst hcontra
            exact hu1 rfl
          · obtain ⟨hprog, -⟩ := hu2 node i2 hu
            simp only [hu]
            by_cases hcl : peekC input (skipWs input i2) = some ')'
            · rw [if_pos hcl]
              have hskip2 := le_skipWs input i2
              refine ⟨by simp, fun node' i' h' => ?_⟩
              simp only [Except.ok.injEq, Prod.mk.injEq] at h'
              obtain ⟨-, h2⟩ := h'
              omega
            · rw [if_neg hcl]
              exact ⟨by simp, fun node' i' h' => by cases h'⟩
        · rw [if_neg hc]
          by_cases hlc : isLiteralChar c = true
          · rw [if_pos hlc]
            refine ⟨by simp, fun node i' h' => ?_⟩
            simp only [Except.ok.injEq, Prod.mk.injEq] at h'
            obtain ⟨-, h2⟩ := h'
            omega
          · rw [if_neg hlc]
            exact ⟨by simp, fun node i' h' => by cases h'⟩
    have HrepL : ∀ node i, 6 * (input.length - i) + 2 ≤ f + 1 →
        repeatLoopF (f + 1) input node i ≠ .error .fuelOut ∧
        ∀ node' i', repeatLoopF (f + 1) input node i = .ok (node', i') → i ≤ i' := by
      intro node i h
      have hskip := le_skipWs input i
      rcases hp : peekC input (skipWs input i) with _ | c
      · simp only [repeatLoopF, hp]
        refine ⟨by simp, fun node' i' h' => ?_⟩
        simp only [Except.ok.injEq, Prod.mk.injEq] at h'
        obtain ⟨-, h2⟩ := h'
        omega
      · have hlt := peekC_some_lt hp
        simp only [repeatLoopF, hp]
        by_cases hstar : c = '*'
        · rw [if_pos hstar]
          have hbound : 6 * (input.length - (skipWs input i + 1)) + 2 ≤ f := by omega
          obtain ⟨hr1, hr2⟩ := IHrepL (RegexNode.star node) (skipWs input i + 1) hbound
          refine ⟨hr1, fun node' i' h' => ?_⟩
          have := hr2 node' i' h'
          omega
        · rw [if_neg hstar]
          by_cases hplus : c = '+'
          · rw [if_pos hplus]
            have hbound : 6 * (input.length - (skipWs input i + 1)) + 2 ≤ f := by omega
            obtain ⟨hr1, hr2⟩ := IHrepL (RegexNode.plus node) (skipWs input i + 1) hbound
            refine ⟨hr1, fun node' i' h' => ?_⟩
            have := hr2 node' i' h'
            omega
          · rw [if_neg hplus]
            by_cases hcar : c = '^'
            · rw [if_pos hcar]
              rcases hp2 : peekC input (skipWs input i + 1) with _ | c2
              · simp only
                exact ⟨by simp, fun node' i' h' => by cases h'⟩
              · simp only
                by_cases hw : c2 = 'w' ∨ c2 = 'ω'
                · rw [if_pos hw]
                  have hskip3 := le_skipWs input (skipWs input i + 2)
                  refine ⟨by simp, fun node' i' h' => ?_⟩
                  simp only [Except.ok.injEq, Prod.mk.injEq] at h'
                  obtain ⟨-, h2⟩ := h'
                  omega
                · rw [if_neg hw]
                  exact ⟨by simp, fun node' i' h' => by cases h'⟩
            · rw [if_neg hcar]
              refine ⟨by simp, fun node' i' h' => ?_⟩
              simp only [Except.ok.injEq, Prod.mk.injEq] at h'
              obtain ⟨-, h2⟩ := h'
              omega
    have Hrep : ∀ i, 6 * (input.length - i) + 2 ≤ f + 1 →
        parseRepeatF (f + 1) input i ≠ .error .fuelOut ∧
        ∀ node i', parseRepeatF (f + 1) input i = .ok (node, i') →
          i + 1 ≤ i' ∧ i < input.length := by
      intro i h
      obtain ⟨hp1, hp2⟩ := IHprim i (by omega)
      rcases hpr : parsePrimaryF f input i with e | ⟨node, i1⟩
      · rw [hpr] at hp1
        simp only [parseRepeatF, hpr]
        refine ⟨?_, fun node i' h' => by cases h'⟩
        intro hcontra
        injection hcontra with hcontra
        subst hcontra
        exact hp1 rfl
      · obtain ⟨hprog, hlen⟩ := hp2 node i1 hpr
        have hbound : 6 * (input.length - i1) + 2 ≤ f := by omega
        obtain ⟨hr1, hr2⟩ := IHrepL node i1 hbound
        simp only [parseRepeatF, hpr]
        refine ⟨hr1, fun node' i' h' => ?_⟩
        have := hr2 node' i' h'
        omega
    have HconL : ∀ nodes i, 6 * (input.length - i) + 3 ≤ f + 1 →
        concatLoopF (f + 1) input nodes i ≠ .error .fuelOut ∧
        ∀ ns i', concatLoopF (f + 1) input nodes i = .ok (ns, i') →
          (ns = nodes ∧ i' = i) ∨ (i + 1 ≤ i' ∧ i < input.length) := by
      intro nodes i h
      rcases hp : peekC input i with _ | c
      · simp only [concatLoopF, hp]
        refine ⟨by simp, fun ns i' h' => ?_⟩
        simp only [Except.ok.injEq, Prod.mk.injEq] at h'
        exact Or.inl ⟨h'.1.symm, h'.2.symm⟩
      · have hlt := peekC_some_lt hp
        simp only [concatLoopF, hp]
        by_cases hbr : c = ')' ∨ c = '|'
        · rw [if_pos hbr]
          refine ⟨by simp, fun ns i' h' => ?_⟩
          simp only [Except.ok.injEq, Prod.mk.injEq] at h'
          exact Or.inl ⟨h'.1.symm, h'.2.symm⟩
        · rw [if_neg hbr]
          obtain ⟨hr1, hr2⟩ := IHrep i (by omega)
          rcases hpr : parseRepeatF f input i with e | ⟨node, i2⟩
          · rw [hpr] at hr1
            simp only [hpr]
            refine ⟨?_, fun ns i' h' => by cases h'⟩
            intro hcontra
            injection hcontra with hcontra
            subst hcontra
            exact hr1 rfl
          · obtain ⟨hprog, hlen⟩ := hr2 node i2 hpr
            have hskip2 := le_skipWs input i2
            have hbound : 6 * (input.length - skipWs input i2) + 3 ≤ f := by omega
            obtain ⟨hc1, hc2⟩ := IHconL (nodes ++ [node]) (skipWs input i2) hbound
            simp only [hpr]
            refine ⟨hc1, fun ns i' h' => ?_⟩
            rcases hc2 ns i' h' with ⟨-, h2⟩ | ⟨h2, -⟩ <;>
              exact Or.inr ⟨by omega, hlt⟩
    have Hcon : ∀ i, 6 * (input.length - i) + 4 ≤ f + 1 →
        parseConcatF (f + 1) input i ≠ .error .fuelOut ∧
        ∀ node i', parseConcatF (f + 1) input i = .ok (node, i') →
          i + 1 ≤ i' ∧ i < input.length := by
      intro i h
      have hskip := le_skipWs input i
      obtain ⟨hc1, hc2⟩ := IHconL [] (skipWs input i) (by omega)
      rcases hcl : concatLoopF f input [] (skipWs input i) with e | ⟨ns, j⟩
      · rw [hcl] at hc1
        simp only [parseConcatF, hcl]
        refine ⟨?_, fun node i' h' => by cases h'⟩
        intro hcontra
        injection hcontra with hcontra
        subst hcontra
        exact hc1 rfl
      · simp only [parseConcatF, hcl]
        by_cases hns : ns.isEmpty
        · rw [if_pos hns]
          exact ⟨by simp, fun node i' h' => by cases h'⟩
        · rw [if_neg hns]
          refine ⟨by simp, fun node i' h' => ?_⟩
          simp only [Except.ok.injEq, Prod.mk.injEq] at h'
          obtain ⟨-, h2⟩ := h'
          rcases hc2 ns j hcl with ⟨hns', -⟩ | ⟨hj, hlen⟩
          · exact absurd hns' (by simpa [List.isEmpty_iff] using hns)
          · omega
    have HuniL : ∀ branches i, 6 * (input.length - i) + 5 ≤ f + 1 →
        unionLoopF (f + 1) input branches i ≠ .error .fuelOut ∧
        ∀ node i', unionLoopF (f + 1) input branches i = .ok (node, i') → i ≤ i' := by
      intro branches i h
      by_cases hp : peekC input i = some '|'
      · have hlt := peekC_some_lt hp
        simp only [unionLoopF, hp, if_true]
        obtain ⟨hc1, hc2⟩ := IHcon (i + 1) (by omega)
        rcases hpc : parseConcatF f input (i + 1) with e | ⟨nxt, i2⟩
        · rw [hpc] at hc1
          simp only [hpc]
          refine ⟨?_, fun node i' h' => by cases h'⟩
          intro hcontra
          injection hcontra with hcontra
          subst hcontra
          exact hc1 rfl
        · obtain ⟨hprog, hlen⟩ := hc2 nxt i2 hpc
          have hskip2 := le_skipWs input i2
          have hbound : 6 * (input.length - skipWs input i2) + 5 ≤ f := by omega
          obtain ⟨hu1, hu2⟩ := IHuniL (branches ++ [nxt]) (skipWs input i2) hbound
          simp only [hpc]
          refine ⟨hu1, fun node i' h' => ?_⟩
          have := hu2 node i' h'
          omega
      · simp only [unionLoopF, hp, if_false]
        refine ⟨by simp, fun node i' h' => ?_⟩
        simp only [Except.ok.injEq, Prod.mk.injEq] at h'
        obtain ⟨-, h2⟩ := h'
        omega
    have Huni : ∀ i, 6 * (input.length - i) + 5 ≤ f + 1 →
        parseUnionF (f + 1) input i ≠ .error .fuelOut ∧
        ∀ node i', parseUnionF (f + 1) input i = .ok (node, i') →
          i + 1 ≤ i' ∧ i < input.length := by
      intro i h
      obtain ⟨hc1, hc2⟩ := IHcon i (by omega)
      rcases hpc : parseConcatF f input i with e | ⟨first, i1⟩
      · rw [hpc] at hc1
        simp only [parseUnionF, hpc]
        refine ⟨?_, fun node i' h' => by cases h'⟩
        intro hcontra
        injection hcontra with hcontra
        subst hcontra
        exact hc1 rfl
      · obtain ⟨hprog, hlen⟩ := hc2 first i1 hpc
        have hskip1 := le_skipWs input i1
        have hbound : 6 * (input.length - skipWs input i1) + 5 ≤ f := by omega
        obtain ⟨hu1, hu2⟩ := IHuniL [first] (skipWs input i1) hbound
        simp only [parseUnionF, hpc]
        refine ⟨hu1, fun node i' h' => ?_⟩
        have := hu2 node i' h'
        omega
    exact ⟨Hprim, HrepL, Hrep, HconL, Hcon, HuniL, Huni⟩

theorem parseTop_no_fuelOut (input : List Char) :
    parseTop (parseFuel input) input ≠ .error .fuelOut := by
  obtain ⟨-, -, -, -, -, -, Huni⟩ := parser_fuel_spec input (parseFuel input)
  obtain ⟨h1, -⟩ := Huni (skipWs input 0) (by
    have := le_skipWs input 0
    simp only [parseFuel]
    omega)
  rw [parseTop]
  rcases hu : parseUnionF (parseFuel input) input (skipWs input 0) with e | ⟨expr, i⟩
  · rw [hu] at h1
    simp only [hu]
    intro hcontra
    injection hcontra with hcontra
    subst hcontra
    exact h1 rfl
  · simp only [hu]
    split <;> simp

/-! ## Claim theorems -/

/-- Claim C1, counterexample: for the one-state automaton with the
single transition q-b->q and q accepting, and the word (a|b) b^w, some
(prefix candidate, loop candidate) pair succeeds with an accepting
periodic cycle (the prefix realization b), yet the first driver returns
accepted = false: it returns at the stuck first prefix realization a
instead of moving on to the next prefix candidate.  This refutes both
the claimed iff and the claimed move-to-the-next-prefix behaviour. -/
theorem c1_counterexample :
    specAcceptingPairExists ceAutomatonAccepting ceWordUnionPrefix ∧
    (dbaEvaluateOmegaWord ceAutomatonAccepting ceWordUnionPrefix).map
      (fun r => r.accepted) = some false := by
  constructor
  · refine ⟨[⟨[-1], ['a']⟩, ⟨[0], ['b']⟩], [⟨[0], ['b']⟩], 0, rfl, rfl, rfl,
      ⟨[0], ['b']⟩, by decide, 0, rfl, ⟨[0], ['b']⟩, by decide,
      ⟨[0, 0], "Cycle detected while repeating the loop word."⟩, rfl, rfl⟩
  · rfl

/-- Claim C1, amended: for an automaton whose initial state resolves to
an index and a parsed word whose candidate sets evaluate, the first
dbaEvaluateOmegaWord returns accepted = true iff the prefix candidate
list is non-empty and EVERY prefix candidate's word runs successfully
from the initial state with some loop candidate inducing a periodic
cycle that contains an accepting state; when a prefix candidate's loop
candidates all fail, the search returns that prefix's first diagnostic
instead of moving on to the next prefix candidate. -/
theorem c1_amended (A : BuchiAutomaton) (w : ParsedOmegaWord)
    (pts lts : List StateTransform) (i0 : Nat) (r : DbaCycleEvaluation)
    (hpts : evaluateRegex (buildLetterTransforms A) A.states.length w.pfx = some pts)
    (hlts : evalNode (buildLetterTransforms A) A.states.length w.omega = some lts)
    (hi : stateToIndex A.states A.initial = some i0)
    (hr : dbaEvaluateOmegaWord A w = some r) :
    r.accepted = true ↔ (pts ≠ [] ∧ ∀ p ∈ pts, prefixGood A lts i0 p) :=
  dbaV1_accepted_characterization A w hpts hlts hi hr

/-- Claim C1, witness: the amended characterization applied to the
one-state accepting automaton and the word b^w. -/
theorem c1_witness :
    dbaEvaluateOmegaWord ceAutomatonAccepting ceWordPureLoop = some
      { accepted := true, cycle := [['q'], ['q']], prefixWord := [], loopWord := ['b'],
        entryState := ['q'],
        reason := "Cycle detected while repeating the loop word." } ∧
    (({ accepted := true, cycle := [['q'], ['q']], prefixWord := [], loopWord := ['b'],
        entryState := ['q'],
        reason := "Cycle detected while repeating the loop word." } :
        DbaCycleEvaluation).accepted = true ↔
      (([⟨[0], []⟩] : List StateTransform) ≠ [] ∧
        ∀ p ∈ ([⟨[0], []⟩] : List StateTransform),
          prefixGood ceAutomatonAccepting [⟨[0], ['b']⟩] 0 p)) :=
  ⟨rfl, c1_amended ceAutomatonAccepting ceWordPureLoop [⟨[0], []⟩] [⟨[0], ['b']⟩] 0 _
    rfl rfl rfl rfl⟩

/-- Claim C2: on the sample automaton titled "finitely many a" the word
a b^w is accepted as claimed, but the word (ab)^w is ALSO accepted by
the code (its periodic cycle q0, q1, q0 visits the accepting state q1),
while the claim and the sample's own title say it must be rejected.
The sample automaton in fact accepts "infinitely many b" (the claimed
language is not recognizable by any deterministic Buchi automaton), so
the code contradicts its own documentation at this input. -/
theorem c2_sample_evaluation :
    (match parseOmegaWord "a b^w" with
     | .success w => (dbaEvaluateOmegaWord sampleFinitelyManyA w).map (fun r => r.accepted)
     | .failure _ => none) = some true ∧
    (match parseOmegaWord "(ab)^w" with
     | .success w => (dbaEvaluateOmegaWord sampleFinitelyManyA w).map (fun r => r.accepted)
     | .failure _ => none) = some true ∧
    (match parseOmegaWord "(ab)^w" with
     | .success w => (dbaEvaluateOmegaWord sampleFinitelyManyA w).map (fun r => r.cycle)
     | .failure _ => none) = some [['q', '0'], ['q', '1'], ['q', '0']] :=
  ⟨rfl, rfl, rfl⟩

/-- Claim C3, counterexample: with the constant step function, entry
state 0 and loop word b, the search returns the cycle [0, 0], which is
the trajectory from the first occurrence of the repeated pair up to and
INCLUDING the repeat, not the claimed segment excluding the repeat
(which would be [0]). -/
theorem c3_counterexample :
    findPeriodicCycle 0 ['b'] (fun _ _ => 0) 2 =
      some (some { cycleStates := [0, 0],
                   reason := "Cycle detected while repeating the loop word." }) ∧
    ¬ ∃ i j, i < j ∧
      trajPair (fun _ _ => 0) ['b'] 0 i = trajPair (fun _ _ => 0) ['b'] 0 j ∧
      (∀ a b, a < b → b < j →
        trajPair (fun _ _ => 0) ['b'] 0 a ≠ trajPair (fun _ _ => 0) ['b'] 0 b) ∧
      ([0, 0] : List Int) =
        (List.range (j - i)).map fun t => trajState (fun _ _ => 0) ['b'] 0 (i + t) := by
  refine ⟨rfl, ?_⟩
  rintro ⟨i, j, hij, -, hmin, heq⟩
  have hpair : trajPair (fun _ _ => 0) ['b'] 0 0 = trajPair (fun _ _ => 0) ['b'] 0 1 := rfl
  have hj : j ≤ 1 := by
    by_contra hj'
    exact hmin 0 1 (by omega) (by omega) hpair
  have hij' : i = 0 ∧ j = 1 := by omega
  obtain ⟨rfl, rfl⟩ := hij'
  simp [List.range_succ, trajState] at heq

/-- Claim C3, amended: for every entry state, non-empty loop word and
step function, when the fueled findPeriodicCycle returns a cycle, the
cycleStates sequence is exactly the trajectory from the first
occurrence of the first repeated (state, position mod loop length) pair
up to AND INCLUDING the repeated occurrence of that pair. -/
theorem c3_amended (step : Int → Str → Int) (loopWord : Str) (entry : Int)
    (fuel : Nat) (c : CycleResult) (hlw : loopWord.length ≠ 0)
    (h : findPeriodicCycle entry loopWord step fuel = some (some c)) :
    ∃ i j, i < j ∧
      trajPair step loopWord entry i = trajPair step loopWord entry j ∧
      (∀ a b, a < b → b < j →
        trajPair step loopWord entry a ≠ trajPair step loopWord entry b) ∧
      c.cycleStates =
        (List.range (j - i + 1)).map fun t => trajState step loopWord entry (i + t) :=
  findPeriodicCycle_cycle_spec hlw h

/-- Claim C3, witness: the amended statement applied to the constant
step function with loop word b. -/
theorem c3_witness :
    (['b'] : Str).length ≠ 0 ∧
    findPeriodicCycle 0 ['b'] (fun _ _ => 0) 2 =
      some (some { cycleStates := [0, 0],
                   reason := "Cycle detected while repeating the loop word." }) ∧
    ∃ i j, i < j ∧
      trajPair (fun _ _ => 0) ['b'] 0 i = trajPair (fun _ _ => 0) ['b'] 0 j ∧
      (∀ a b, a < b → b < j →
        trajPair (fun _ _ => 0) ['b'] 0 a ≠ trajPair (fun _ _ => 0) ['b'] 0 b) ∧
      ([0, 0] : List Int) =
        (List.range (j - i + 1)).map fun t => trajState (fun _ _ => 0) ['b'] 0 (i + t) :=
  ⟨by decide, rfl,
    c3_amended (fun _ _ => 0) ['b'] 0 2
      { cycleStates := [0, 0],
        reason := "Cycle detected while repeating the loop word." } (by decide) rfl⟩

/-- Claim C4, counterexample: over a one-state automaton the well-formed
base consisting of the always-undefined transform yields a closure with
two pairwise distinct maps, exceeding the claimed bound of
1 ^ 1 = 1 (maps may contain the -1 sentinel, so the correct bound is
(n + 1) ^ n, not n ^ n). -/
theorem c4_counterexample :
    (∀ b ∈ ([⟨[-1], ['a']⟩] : List StateTransform), TransformWF 1 b) ∧
    starClosure [⟨[-1], ['a']⟩] 1 = some [⟨[0], []⟩, ⟨[-1], ['a']⟩] ∧
    (([⟨[0], []⟩, ⟨[-1], ['a']⟩] : List StateTransform).map transformKey).Nodup ∧
    ¬ (([⟨[0], []⟩, ⟨[-1], ['a']⟩] : List StateTransform).length ≤ 1 ^ 1) :=
  ⟨by decide, rfl, by decide, by decide⟩

/-- Claim C4, amended: for every well-formed base of transforms over n
states, starClosure returns a closure that contains the identity
transform, is closed under composition with base members up to equality
of the state maps, has pairwise distinct state maps, and has at most
(n + 1) ^ n members (the maps are total functions into the n states
plus the undefined sentinel). -/
theorem c4_amended (base : List StateTransform) (size : Nat)
    (hWF : ∀ b ∈ base, TransformWF size b) :
    ∃ c, starClosure base size = some c ∧
      identityTransform size ∈ c ∧
      (∀ t ∈ c, ∀ b ∈ base, ∃ u ∈ c, u.map = (compose t b).map) ∧
      (c.map transformKey).Nodup ∧
      c.length ≤ (size + 1) ^ size := by
  obtain ⟨c, hc, hpre, hnodup, hkeys, hclosed⟩ := starClosure_spec base size
  refine ⟨c, hc, ?_, ?_, hnodup, closure_length_le_of_WF hWF hnodup hkeys⟩
  · exact hpre.subset (identity_mem_initClosure base size)
  · intro t ht b hb
    obtain ⟨u, hu, hueq⟩ := List.mem_map.1 (hclosed t ht b hb)
    exact ⟨u, hu, hueq⟩

/-- Claim C4, witness: the amended statement applied to the one-state
base above. -/
theorem c4_witness :
    (∀ b ∈ ([⟨[-1], ['a']⟩] : List StateTransform), TransformWF 1 b) ∧
    ∃ c, starClosure [⟨[-1], ['a']⟩] 1 = some c ∧
      identityTransform 1 ∈ c ∧
      (∀ t ∈ c, ∀ b ∈ ([⟨[-1], ['a']⟩] : List StateTransform),
        ∃ u ∈ c, u.map = (compose t b).map) ∧
      (c.map transformKey).Nodup ∧
      c.length ≤ (1 + 1) ^ 1 :=
  ⟨by decide, c4_amended [⟨[-1], ['a']⟩] 1 (by decide)⟩

/-- Claim C5: parseOmegaWord returns success only when the AST has
exactly one omega node placed as the whole AST or as the last element
of a top-level concatenation; the zero-omega, many-omega and misplaced-
omega cases each fail with their own distinct diagnostic; and the input
(ab)^w|c fails with the omega-not-trailing diagnostic. -/
theorem c5_omega_placement :
    (∀ raw w, parseOmegaWord raw = .success w →
      countOmegaNodes (some w.ast) = 1 ∧ OmegaTrailing w.ast) ∧
    (∀ raw ast, ¬ (trimChars raw.toList).isEmpty →
      parseTop (parseFuel (trimChars raw.toList)) (trimChars raw.toList) = .ok ast →
      ((countOmega ast = 0 →
        parseOmegaWord raw =
          .failure "Add a ^w suffix to mark the infinite loop (e.g., ab(ba)^w).") ∧
       (countOmega ast > 1 →
        parseOmegaWord raw = .failure "Only one ^w (or ^ω) suffix is allowed.") ∧
       (countOmega ast = 1 → extractOmegaComponents ast = none →
        parseOmegaWord raw =
          .failure "Place the ^w suffix at the end so the word looks like αβ^w."))) ∧
    ("Add a ^w suffix to mark the infinite loop (e.g., ab(ba)^w)." ≠
      "Only one ^w (or ^ω) suffix is allowed." ∧
     "Add a ^w suffix to mark the infinite loop (e.g., ab(ba)^w)." ≠
      "Place the ^w suffix at the end so the word looks like αβ^w." ∧
     "Only one ^w (or ^ω) suffix is allowed." ≠
      "Place the ^w suffix at the end so the word looks like αβ^w.") ∧
    parseOmegaWord "(ab)^w|c" =
      .failure "Place the ^w suffix at the end so the word looks like αβ^w." :=
  ⟨fun _ _ h => parseOmegaWord_success_shape h,
   fun raw ast h1 h2 => parseOmegaWord_diagnostics raw ast h1 h2,
   ⟨by decide, by decide, by decide⟩, rfl⟩

/-- Claim C5, witness: the success-shape part applied to the parse of
the word (ab)^w. -/
theorem c5_witness :
    countOmegaNodes (some (RegexNode.omega (.concat [.literal ['a'], .literal ['b']]))) = 1 ∧
    OmegaTrailing (RegexNode.omega (.concat [.literal ['a'], .literal ['b']])) :=
  c5_omega_placement.1 "(ab)^w"
    { pfx := none, omega := .concat [.literal ['a'], .literal ['b']],
      ast := .omega (.concat [.literal ['a'], .literal ['b']]) } rfl

/-- Claim C6, counterexample: on the one-state automaton with no
accepting states and the word (b|a) b^w, the prefix candidate a gets
stuck, yet the returned record's reason is the non-accepting cycle
diagnostic of the earlier candidate b, not a reason attributing the
failure to the prefix. -/
theorem c6_counterexample :
    dbaEvaluateOmegaWord ceAutomatonRejecting ceWordUnionPrefixRev = some
      { accepted := false, cycle := [['q'], ['q']], prefixWord := ['b'], loopWord := ['b'],
        entryState := ['q'],
        reason := "Cycle detected while repeating the loop word." } ∧
    evaluateRegex (buildLetterTransforms ceAutomatonRejecting)
      ceAutomatonRejecting.states.length ceWordUnionPrefixRev.pfx =
      some [⟨[0], ['b']⟩, ⟨[-1], ['a']⟩] ∧
    (⟨[-1], ['a']⟩ : StateTransform) ∈ ([⟨[0], ['b']⟩, ⟨[-1], ['a']⟩] : List StateTransform) ∧
    runWord ['a'] (0 : Int) (buildStep ceAutomatonRejecting) = none ∧
    "Cycle detected while repeating the loop word." ≠
      "Prefix causes the run to get stuck." :=
  ⟨rfl, rfl, by decide, rfl, by decide⟩

/-- Claim C6, amended: a stuck prefix candidate always forces
accepted = false; and when the FIRST prefix candidate gets stuck the
result is exactly the prefix-stuck record (empty loop word, no loop
candidate evaluated, reason attributing the failure to the prefix).  In
general the returned reason may instead be an earlier prefix
candidate's diagnostic. -/
theorem c6_amended :
    (∀ (A : BuchiAutomaton) (w : ParsedOmegaWord) (pts lts : List StateTransform)
      (i0 : Nat) (r : DbaCycleEvaluation) (p : StateTransform),
      evaluateRegex (buildLetterTransforms A) A.states.length w.pfx = some pts →
      evalNode (buildLetterTransforms A) A.states.length w.omega = some lts →
      stateToIndex A.states A.initial = some i0 →
      dbaEvaluateOmegaWord A w = some r →
      p ∈ pts → runWord p.word (i0 : Int) (buildStep A) = none →
      r.accepted = false) ∧
    (∀ (A : BuchiAutomaton) (w : ParsedOmegaWord) (p : StateTransform)
      (rest lts : List StateTransform) (i0 : Nat),
      evaluateRegex (buildLetterTransforms A) A.states.length w.pfx = some (p :: rest) →
      evalNode (buildLetterTransforms A) A.states.length w.omega = some lts →
      stateToIndex A.states A.initial = some i0 →
      runWord p.word (i0 : Int) (buildStep A) = none →
      dbaEvaluateOmegaWord A w = some (prefixStuckRecord A p)) :=
  ⟨fun A w _ _ _ _ _ h1 h2 h3 h4 h5 h6 => dbaV1_stuck_prefix_rejects A w h1 h2 h3 h4 h5 h6,
   fun A w _ _ _ _ h1 h2 h3 h4 => dbaV1_first_prefix_stuck A w h1 h2 h3 h4⟩

/-- Claim C6, witness: both amended parts applied to the one-state
accepting automaton and the word (a|b) b^w, whose first prefix
candidate a is stuck. -/
theorem c6_witness :
    dbaEvaluateOmegaWord ceAutomatonAccepting ceWordUnionPrefix =
      some (prefixStuckRecord ceAutomatonAccepting ⟨[-1], ['a']⟩) ∧
    (prefixStuckRecord ceAutomatonAccepting ⟨[-1], ['a']⟩).accepted = false :=
  ⟨c6_amended.2 ceAutomatonAccepting ceWordUnionPrefix ⟨[-1], ['a']⟩
      [⟨[0], ['b']⟩] [⟨[0], ['b']⟩] 0 rfl rfl rfl rfl,
   c6_amended.1 ceAutomatonAccepting ceWordUnionPrefix
      [⟨[-1], ['a']⟩, ⟨[0], ['b']⟩] [⟨[0], ['b']⟩] 0 _ ⟨[-1], ['a']⟩
      rfl rfl rfl rfl (by decide) rfl⟩

/-- Claim C7, counterexample: on the one-state accepting automaton and
the word (a|b) b^w the two implementations disagree even on the
accepted bit: the first returns false (it stops at the stuck first
prefix candidate), the second returns true (it skips it and accepts via
the candidate b). -/
theorem c7_counterexample :
    (dbaEvaluateOmegaWord ceAutomatonAccepting ceWordUnionPrefix).map
      (fun r => r.accepted) = some false ∧
    (dbaEvaluateOmegaWordV2 ceAutomatonAccepting ceWordUnionPrefix).map
      (fun r => r.accepted) = some true :=
  ⟨rfl, rfl⟩

/-- Claim C7, amended: the two implementations agree whenever the first
accepts: if the first driver returns a record with accepted = true, the
second driver returns the identical record. -/
theorem c7_amended (A : BuchiAutomaton) (w : ParsedOmegaWord) (r : DbaCycleEvaluation)
    (h : dbaEvaluateOmegaWord A w = some r) (hacc : r.accepted = true) :
    dbaEvaluateOmegaWordV2 A w = some r :=
  v1_accepts_implies_v2 A w r h hacc

/-- Claim C7, witness: the amended agreement applied to the one-state
accepting automaton and the word b^w. -/
theorem c7_witness :
    dbaEvaluateOmegaWord ceAutomatonAccepting ceWordPureLoop = some
      { accepted := true, cycle := [['q'], ['q']], prefixWord := [], loopWord := ['b'],
        entryState := ['q'],
        reason := "Cycle detected while repeating the loop word." } ∧
    dbaEvaluateOmegaWordV2 ceAutomatonAccepting ceWordPureLoop = some
      { accepted := true, cycle := [['q'], ['q']], prefixWord := [], loopWord := ['b'],
        entryState := ['q'],
        reason := "Cycle detected while repeating the loop word." } :=
  ⟨rfl, c7_amended ceAutomatonAccepting ceWordPureLoop _ rfl rfl⟩

/-- Claim C8: nothing in the core faults: the parser, run with the fuel
parseOmegaWord passes, never exhausts it (the only model-level fault),
and both evaluation drivers return a structured record on every
automaton and parsed word. -/
theorem c8_no_unhandled_fault :
    (∀ input : List Char, parseTop (parseFuel input) input ≠ .error .fuelOut) ∧
    (∀ (A : BuchiAutomaton) (w : ParsedOmegaWord),
      (dbaEvaluateOmegaWord A w).isSome ∧ (dbaEvaluateOmegaWordV2 A w).isSome) :=
  ⟨parseTop_no_fuelOut,
   fun A w => ⟨dbaEvaluateOmegaWord_isSome A w, dbaEvaluateOmegaWordV2_isSome A w⟩⟩

/-- Claim C8, witness: the totality statement applied to a concrete
input string and a concrete automaton and word. -/
theorem c8_witness :
    parseTop (parseFuel ['a', '^', 'w']) ['a', '^', 'w'] ≠ .error .fuelOut ∧
    (dbaEvaluateOmegaWord ceAutomatonAccepting ceWordUnionPrefix).isSome :=
  ⟨c8_no_unhandled_fault.1 ['a', '^', 'w'],
   (c8_no_unhandled_fault.2 ceAutomatonAccepting ceWordUnionPrefix).1⟩

/-- Claim C9: the star-closure worklist terminates for every base and
size (the reachable key space is finite), so starClosure always returns
a closure and the regex evaluator is total on every node. -/
theorem c9_star_closure_terminates :
    (∀ (base : List StateTransform) (size : Nat), (starClosure base size).isSome) ∧
    (∀ (lt : Str → Option StateTransform) (size : Nat) (node : RegexNode),
      (evalNode lt size node).isSome) :=
  ⟨starClosure_isSome, evalNode_isSome⟩

/-- Claim C10: for every entry state, step function and fuel, the cycle
search on an empty loop word returns the one-element cycle at the entry
state. -/
theorem c10_empty_loop (entry : Int) (step : Int → Str → Int) (fuel : Nat) :
    findPeriodicCycle entry [] step fuel =
      some (some { cycleStates := [entry],
                   reason := "Empty loop word; stay in the entry state." }) := rfl

end Automaton
